import Mathlib

set_option maxRecDepth 8000
set_option maxHeartbeats 2000000

/-!
Verification of the vvroom pagination and media-layout engine.

The definitions below are a shallow embedding of the repository's Python
sources:

* `parse_content_blocks`, `split_into_pages` from
  `textbook-editor/page_splitter.py` (Block Segmenter and Page Packer);
* `calculate_scaled_dimensions`, `can_fit_with_shrink` and the image
  splitting loop of `create_pdf` from `tools/images-to-pdf.py`
  (Image Fitter and Slice Cropper);
* the slicing loop of `add_split_image` from `tools/journal-to-pdf.py`
  (the second Slice Cropper).

Python `float` arithmetic in the image pipeline is modelled by exact
rational arithmetic (`ℚ`); machine integers are `ℕ`/`ℤ`.  The one place
where the value of an IEEE double constant matters — `TARGET_CHARS * 1.3`
in the packer — is modelled by the exact rational value of the double
literal `1.3`, which gives the same comparisons on integers as the Python
expression (see `onePointThree` below).

Strings are processed the way Python does: `str.split('\n')`,
`'\n'.join`, `str.strip()` and the regular expressions of the source are
given explicit executable definitions on `Char` lists.
-/

/-! ## Python string primitives -/

/-- The set of characters Python's `str.strip()` and the regex class `\s`
treat as whitespace for `str` (the Unicode whitespace characters). -/
def isPySpace (c : Char) : Bool :=
  decide (c = ' ' ∨ c = '\t' ∨ c = '\n' ∨ c = '\r' ∨ c = '\x0b' ∨ c = '\x0c' ∨
    ('\x1c' ≤ c ∧ c ≤ '\x1f') ∨ c = '\x85' ∨ c = '\xa0' ∨ c = '\u1680' ∨
    ('\u2000' ≤ c ∧ c ≤ '\u200a') ∨ c = '\u2028' ∨ c = '\u2029' ∨
    c = '\u202f' ∨ c = '\u205f' ∨ c = '\u3000')

/-- Python `line.strip()`: remove leading and trailing whitespace. -/
def pyStrip (s : String) : String :=
  ⟨(((s.data.dropWhile isPySpace).reverse).dropWhile isPySpace).reverse⟩

/-- Python `s.startswith(p)`. -/
def pyStartsWith (s p : String) : Bool :=
  p.data.isPrefixOf s.data

/-- Python `'\n'.join(lines)`. -/
def joinLines : List String → String
  | [] => ""
  | [l] => l
  | l :: ls => l ++ "\n" ++ joinLines ls

/-- Python `content.split('\n')` on the underlying character list.  The
result is always non-empty; splitting the empty list yields `[[]]`, as
`''.split('\n') == ['']` in Python. -/
def splitNl : List Char → List (List Char)
  | [] => [[]]
  | c :: cs =>
    if c = '\n' then [] :: splitNl cs
    else
      match splitNl cs with
      | g :: gs => (c :: g) :: gs
      | [] => [[c]]

/-- Joining character-list lines with `'\n'`; the inverse of `splitNl`. -/
def joinChars : List (List Char) → List Char
  | [] => []
  | [g] => g
  | g :: gs => g ++ '\n' :: joinChars gs

/-- Python `content.split('\n')` as a list of strings. -/
def splitLines (s : String) : List String :=
  (splitNl s.data).map String.mk

/-! ## Block Segmenter data model (`page_splitter.py`) -/

/-- The block kinds used by `page_splitter.py` (`block_type` strings). -/
inductive BlockType where
  | heading
  | paragraph
  | code
  | table
  | list
  | hr
  | step
deriving DecidableEq, Repr

/-- `ContentBlock` from `page_splitter.py`: a block of content that should
not be split.  `char_count` is stored separately from `content`, exactly
as in the Python dataclass. -/
structure ContentBlock where
  content : String
  block_type : BlockType
  char_count : ℕ
deriving DecidableEq, Repr

/-- `ContentBlock.is_break_point`: the block kinds that are good places to
start a new page (`block_type in ('heading', 'hr', 'step')`). -/
def ContentBlock.is_break_point (b : ContentBlock) : Bool :=
  match b.block_type with
  | .heading | .hr | .step => true
  | _ => false

/-! ## Line classification predicates (`parse_content_blocks`) -/

/-- `line.strip() == ''`: a blank (whitespace-only) line. -/
def isBlankLine (l : String) : Bool :=
  l.data.all isPySpace

/-- `line.strip().startswith('```')`: a code-fence line. -/
def isFenceLine (l : String) : Bool :=
  pyStartsWith (pyStrip l) ("```")

/-- The table-row test of `parse_content_blocks`:
`line.strip().startswith('|') or (line.strip().startswith('|-') or
line.strip().startswith('|:'))` — the second and third disjuncts are
redundant, as in the source. -/
def isTableRowLine (l : String) : Bool :=
  pyStartsWith (pyStrip l) ("|") ||
    (pyStartsWith (pyStrip l) ("|-") || pyStartsWith (pyStrip l) ("|:"))

/-- `line.strip() in ('---', '***', '___')`: a horizontal rule. -/
def isHrLine (l : String) : Bool :=
  decide (pyStrip l = "---" ∨ pyStrip l = "***" ∨ pyStrip l = "___")

/-- `line.startswith('#')` (on the raw, unstripped line). -/
def isHashHeading (l : String) : Bool :=
  pyStartsWith l ("#")

/-- The `\d+\.\d+` tail of the step-heading pattern (ASCII digits). -/
def matchStepTail (cs : List Char) : Bool :=
  let ds := cs.takeWhile Char.isDigit
  if ds.isEmpty then false
  else
    match cs.drop ds.length with
    | '.' :: cs2 => !(cs2.takeWhile Char.isDigit).isEmpty
    | _ => false

/-- The regex `re.match(r'^#+\s*Step\s+\d+\.\d+', line)` of
`parse_content_blocks`, with `\d` modelled as ASCII digits (the claims do
not depend on non-ASCII decimal digits). -/
def isStepHeading (l : String) : Bool :=
  match l.data with
  | '#' :: cs =>
    let cs1 := cs.dropWhile (fun c => c = '#')
    let cs2 := cs1.dropWhile isPySpace
    match cs2 with
    | 'S' :: 't' :: 'e' :: 'p' :: cs3 =>
      let sp := cs3.takeWhile isPySpace
      if sp.isEmpty then false else matchStepTail (cs3.drop sp.length)
    | _ => false
  | _ => false

/-- `[-*+]\s` after optional leading whitespace. -/
def isBulletCore : List Char → Bool
  | b :: s :: _ => decide ((b = '-' ∨ b = '*' ∨ b = '+') ∧ isPySpace s = true)
  | _ => false

/-- `\d+\.\s` after optional leading whitespace. -/
def isNumberedCore (cs : List Char) : Bool :=
  let ds := cs.takeWhile Char.isDigit
  if ds.isEmpty then false
  else
    match cs.drop ds.length with
    | '.' :: s :: _ => isPySpace s
    | _ => false

/-- `re.match(r'^[\s]*[-*+]\s', line) or re.match(r'^[\s]*\d+\.\s', line)`:
a bullet or numbered list item. -/
def isListItemLine (l : String) : Bool :=
  let cs := l.data.dropWhile isPySpace
  isBulletCore cs || isNumberedCore cs

/-- `next_line.startswith('  ') and next_line.strip()`: an indented
continuation line inside a list. -/
def isIndentContinuation (l : String) : Bool :=
  pyStartsWith l ("  ") && !(isBlankLine l)

/-- The stop test of the heading lead-in paragraph loop:
`lines[i].strip() != '' and not lines[i].startswith('#') and not
lines[i].strip().startswith('```') and not lines[i].strip().startswith('|')`. -/
def isHeadingContinuation (l : String) : Bool :=
  !(isBlankLine l) && !(pyStartsWith l ("#")) &&
    !(pyStartsWith (pyStrip l) ("```")) && !(pyStartsWith (pyStrip l) ("|"))

/-! ## Block Segmenter -/

/-- The list-absorption loop of `parse_content_blocks` (the `while` loop
in the list branch): returns the absorbed continuation lines and the
unconsumed remainder.  A blank line is absorbed only when the next
non-blank line is itself a list item; otherwise the loop breaks without
consuming it. -/
def absorbList : List String → List String × List String
  | [] => ([], [])
  | next_line :: rest =>
    if isListItemLine next_line || isIndentContinuation next_line ||
        isBlankLine next_line then
      if isBlankLine next_line then
        match rest.dropWhile isBlankLine with
        | j :: _ =>
          if isListItemLine j then
            let ar := absorbList rest
            (next_line :: ar.1, ar.2)
          else ([], next_line :: rest)
        | [] => ([], next_line :: rest)
      else
        let ar := absorbList rest
        (next_line :: ar.1, ar.2)
    else ([], next_line :: rest)

/-- Build a `ContentBlock` the way every emission site of
`parse_content_blocks` does: `block_content = '\n'.join(current_block)`
and `char_count = len(block_content)`. -/
def mkBlock (ls : List String) (ty : BlockType) : ContentBlock :=
  let s := joinLines ls
  ⟨s, ty, s.length⟩

/-- `if current_block: blocks.append(...)` — flush the running buffer. -/
def flushBlocks (ls : List String) (ty : BlockType) : List ContentBlock :=
  if ls.isEmpty then [] else [mkBlock ls ty]

/-- The flush after the main loop: the remaining buffer is emitted only
when its joined content has non-empty `strip()`; its type is
`current_type if not in_code_block else 'code'`. -/
def eofFlush (ls : List String) (ty : BlockType) (inCode : Bool) : List ContentBlock :=
  if ls.isEmpty then []
  else
    let s := joinLines ls
    if pyStrip s = "" then []
    else [⟨s, if inCode then .code else ty, s.length⟩]

/-- The main `while i < len(lines)` loop of `parse_content_blocks`,
branch by branch in source order.  The state is the unconsumed lines,
`current_block`, `current_type`, `in_code_block` and `in_table`.

The table-end branch of the source re-processes the current line without
advancing `i` (it only flips `in_table`); here that is the recursive call
on `line :: rest` with `in_table := false`.  The natural-number `fuel`
makes the recursion structural; each line consumes at most two steps
(one possible table-end re-process plus one consumption), so
`2 * lines.length + 1` fuel always suffices, which is what
`parse_content_blocks` passes.  The source's blank-line branch appends the
line to `current_block` in both of its arms, so it coincides with the
final paragraph branch below. -/
def parseLoop : ℕ → List String → List String → BlockType → Bool → Bool → List ContentBlock
  | 0, _, _, _, _, _ => []
  | _ + 1, [], acc, ty, inCode, _ => eofFlush acc ty inCode
  | fuel + 1, line :: rest, acc, ty, inCode, inTable =>
    if isFenceLine line then
      if inCode then
        mkBlock (acc ++ [line]) .code :: parseLoop fuel rest [] .paragraph false inTable
      else
        flushBlocks acc ty ++ parseLoop fuel rest [line] .code true inTable
    else if inCode then
      parseLoop fuel rest (acc ++ [line]) ty inCode inTable
    else if isTableRowLine line then
      if inTable then
        parseLoop fuel rest (acc ++ [line]) ty inCode inTable
      else
        flushBlocks acc ty ++ parseLoop fuel rest [line] .table inCode true
    else if inTable then
      mkBlock acc .table :: parseLoop fuel (line :: rest) [] .paragraph inCode false
    else if isHrLine line then
      flushBlocks acc ty ++
        ⟨line, .hr, line.length⟩ :: parseLoop fuel rest [] .paragraph inCode inTable
    else if isHashHeading line then
      let heading_type := if isStepHeading line then BlockType.step else BlockType.heading
      let blanks := rest.takeWhile isBlankLine
      let rest1 := rest.dropWhile isBlankLine
      let firstPar := rest1.takeWhile isHeadingContinuation
      let rest2 := rest1.dropWhile isHeadingContinuation
      flushBlocks acc ty ++
        mkBlock (line :: (blanks ++ firstPar)) heading_type ::
          parseLoop fuel rest2 [] .paragraph inCode inTable
    else if isListItemLine line then
      let ar := absorbList rest
      flushBlocks acc ty ++
        mkBlock (line :: ar.1) .list :: parseLoop fuel ar.2 [] .paragraph inCode inTable
    else
      parseLoop fuel rest (acc ++ [line]) ty inCode inTable

/-- `parse_content_blocks(content)`: parse markdown content into blocks
that should not be split. -/
def parse_content_blocks (content : String) : List ContentBlock :=
  let lines := splitLines content
  parseLoop (2 * lines.length + 1) lines [] .paragraph false false

/-! ## Page Packer (`split_into_pages`) -/

def TARGET_CHARS : ℕ := 2750
def MIN_CHARS : ℕ := 2000
def MAX_CHARS : ℕ := 3500

/-- The exact rational value of the IEEE-754 double `1.3`
(`5854679515581645 * 2 ^ -52`).  The Python comparison
`potential_chars > TARGET_CHARS * 1.3` compares an integer with the
double rounding of `2750 * 1.3`, which is exactly `3575.0`; for every
integer `p`, `p > 3575.0` iff `p` exceeds the exact product below, so
comparing against the exact product is a faithful model. -/
def onePointThree : ℚ := 5854679515581645 / 4503599627370496

/-- `potential_chars > TARGET_CHARS * 1.3`: the integer `potential_chars`
exceeds the rational `TARGET_CHARS * onePointThree = a / b` (with `b > 0`)
iff `TARGET_CHARS * a < potential_chars * b`, so the comparison is stated
on naturals to keep it kernel-computable; `overshootsTarget_iff_rat` below
proves it equal to the rational comparison. -/
def overshootsTarget (potential_chars : ℕ) : Bool :=
  decide (TARGET_CHARS * 5854679515581645 < potential_chars * 4503599627370496)

/-- The break decision of `split_into_pages` for one block, given the
accumulated `current_chars` — the three-tier rule in source order. -/
def shouldBreakBlock (current_chars : ℕ) (b : ContentBlock) : Bool :=
  let potential_chars := current_chars + b.char_count
  if current_chars = 0 then false
  else if b.is_break_point = true ∧ MIN_CHARS ≤ current_chars then true
  else if MAX_CHARS < potential_chars ∧ MIN_CHARS ≤ current_chars then true
  else if overshootsTarget potential_chars = true then true
  else false

/-- The loop state of `split_into_pages`: emitted pages (as block lists),
the page under construction, and its accumulated character count. -/
structure PackState where
  pages : List (List ContentBlock)
  current_page : List ContentBlock
  current_chars : ℕ
deriving Repr

/-- One iteration of the `for` loop of `split_into_pages`: if
`should_break and current_page`, close the page and start a new one with
this block; either way the block is appended to the (possibly fresh)
current page. -/
def packStep (s : PackState) (b : ContentBlock) : PackState :=
  if shouldBreakBlock s.current_chars b = true ∧ s.current_page ≠ [] then
    { pages := s.pages ++ [s.current_page]
      current_page := [b]
      current_chars := b.char_count }
  else
    { pages := s.pages
      current_page := s.current_page ++ [b]
      current_chars := s.current_chars + b.char_count }

/-- `split_into_pages(blocks)` at the level of block assignment: the
ordered pages, each an ordered list of the blocks placed on it.  (The
source finally renders each page as `'\n'.join(...).strip()`; see
`split_into_pages_text`.) -/
def split_into_pages (blocks : List ContentBlock) : List (List ContentBlock) :=
  let final := blocks.foldl packStep ⟨[], [], 0⟩
  if final.current_page ≠ [] then final.pages ++ [final.current_page]
  else final.pages

/-- The character count the packer accounts to a page: the sum of its
blocks' `char_count`s (the loop's `current_chars`). -/
def pageChars (p : List ContentBlock) : ℕ :=
  (p.map ContentBlock.char_count).sum

/-- `'\n'.join(b.content for b in current_page).strip()`. -/
def pageText (p : List ContentBlock) : String :=
  pyStrip (joinLines (p.map ContentBlock.content))

/-- The string pages actually returned by `split_into_pages`. -/
def split_into_pages_text (blocks : List ContentBlock) : List String :=
  (split_into_pages blocks).map pageText

/-- The packer state just before block `i` is processed. -/
def packStateAt (blocks : List ContentBlock) (i : ℕ) : PackState :=
  (blocks.take i).foldl packStep ⟨[], [], 0⟩

/-! ## Image Fitter (`images-to-pdf.py`) -/

def PAGE_WIDTH : ℚ := 612
def PAGE_HEIGHT : ℚ := 792
def MARGIN : ℚ := 36
def USABLE_WIDTH : ℚ := PAGE_WIDTH - 2 * MARGIN
def USABLE_HEIGHT : ℚ := PAGE_HEIGHT - 2 * MARGIN

/-- `calculate_scaled_dimensions(img_width, img_height, max_width,
max_height=None)`: scale to fit the width, then scale down further if a
height constraint is given and exceeded.  This version computes in exact
rational arithmetic; the source computes in binary64 floats, modelled
separately by `calcScaledFloat`, and the two agree exactly when every
intermediate value is exactly representable (e.g. when `540 / img_width`
is dyadic, as at 540 x 900, 1080 x 2881). -/
def calculate_scaled_dimensions (img_width img_height : ℕ) (max_width : ℚ)
    (max_height : Option ℚ) : ℚ × ℚ :=
  let scale := max_width / (img_width : ℚ)
  let scaled_width := max_width
  let scaled_height := (img_height : ℚ) * scale
  match max_height with
  | some mh =>
    if mh < scaled_height then ((img_width : ℚ) * (mh / (img_height : ℚ)), mh)
    else (scaled_width, scaled_height)
  | none => (scaled_width, scaled_height)

/-- The default `shrink_factor=0.8` of `can_fit_with_shrink`. -/
def shrinkFloor : ℚ := 4 / 5

/-- `can_fit_with_shrink(img_width, img_height, shrink_factor=0.8)`:
`(can_fit, scaled_width, scaled_height)`, in exact rational arithmetic
(the idealized fit test the spec describes).  The source's binary64
computation is modelled separately by `canFitFloat`; the two can differ
when rounding perturbs a value across the comparison (see the C6
divergence at 105 x 175). -/
def can_fit_with_shrink (img_width img_height : ℕ)
    (shrink_factor : ℚ := shrinkFloor) : Bool × ℚ × ℚ :=
  let sd := calculate_scaled_dimensions img_width img_height USABLE_WIDTH none
  let scaled_width := sd.1
  let scaled_height := sd.2
  if scaled_height ≤ USABLE_HEIGHT then (true, scaled_width, scaled_height)
  else
    let min_scale := shrink_factor
    let required_scale := USABLE_HEIGHT / scaled_height
    if min_scale ≤ required_scale then
      (true, scaled_width * required_scale, USABLE_HEIGHT)
    else (false, scaled_width, scaled_height)

/-- The width-fit scaled height of an image (`scaled_height` after
`calculate_scaled_dimensions(img_width, img_height, USABLE_WIDTH)`). -/
def widthFitHeight (img_width img_height : ℕ) : ℚ :=
  (calculate_scaled_dimensions img_width img_height USABLE_WIDTH none).2

/-! ## Slice Cropper (`create_pdf` splitting loop, `images-to-pdf.py`) -/

/-- The spec's `SliceSpec` for one output slice: source crop rows,
rendered dimensions, and the `index/total` caption data.  For the
`create_pdf` loop, `sourceYStart`/`sourceYEnd` are the `int(...)` crop
bounds, `renderedHeight` is `actual_height`, and `total` is the
precomputed `total_pages`. -/
structure SliceSpec where
  sourceYStart : ℤ
  sourceYEnd : ℤ
  renderedWidth : ℚ
  renderedHeight : ℚ
  index : ℕ
  total : ℤ
deriving DecidableEq, Repr

/-- `total_pages = int((scaled_height + USABLE_HEIGHT - 1) // USABLE_HEIGHT)`. -/
def totalPagesCreatePdf (scaled_height : ℚ) : ℤ :=
  ⌊(scaled_height + USABLE_HEIGHT - 1) / USABLE_HEIGHT⌋

/-- The `while remaining_height > 0` loop of `create_pdf`: on each page
show `min(remaining_height, USABLE_HEIGHT)` of scaled height, convert it
back to source rows via `scale_factor`, crop `(int(crop_y_start),
int(crop_y_end))`, and draw with `actual_height = (crop_y_end -
crop_y_start) * scale_factor`.  Python's `int()` on the non-negative
crop bounds is `⌊·⌋`.  The fuel is the iteration count
`⌈scaled_height / USABLE_HEIGHT⌉`, supplied by `createPdfSlices`.  This
version computes in exact rational arithmetic; the source's binary64
loop is modelled separately by `createPdfFloatGo`, and the accumulated
rounding there can push the final crop bound just below `img_height`
(see the C5 counterexample at 50 x 92), which this exact version never
does. -/
def createPdfGo (img_height : ℕ) (scale_factor scaled_width : ℚ) (total : ℤ) :
    ℕ → ℚ → ℚ → ℕ → List SliceSpec
  | 0, _, _, _ => []
  | fuel + 1, remaining_height, crop_y_start, page_num =>
    if 0 < remaining_height then
      let this_page_height := min remaining_height USABLE_HEIGHT
      let crop_height_original := this_page_height / scale_factor
      let crop_y_end := min (crop_y_start + crop_height_original) (img_height : ℚ)
      let actual_height := (crop_y_end - crop_y_start) * scale_factor
      { sourceYStart := ⌊crop_y_start⌋
        sourceYEnd := ⌊crop_y_end⌋
        renderedWidth := scaled_width
        renderedHeight := actual_height
        index := page_num + 1
        total := total } ::
        createPdfGo img_height scale_factor scaled_width total fuel
          (remaining_height - this_page_height) crop_y_end (page_num + 1)
    else []

/-- The slices produced by the multi-page branch of `create_pdf` for an
image of `img_width × img_height` pixels. -/
def createPdfSlices (img_width img_height : ℕ) : List SliceSpec :=
  let sd := calculate_scaled_dimensions img_width img_height USABLE_WIDTH none
  let scaled_width := sd.1
  let scaled_height := sd.2
  let total_pages := totalPagesCreatePdf scaled_height
  let scale_factor := scaled_width / (img_width : ℚ)
  createPdfGo img_height scale_factor scaled_width total_pages
    (⌈scaled_height / USABLE_HEIGHT⌉.toNat) scaled_height 0 0

/-! ## Slice Cropper variant (`add_split_image`, `journal-to-pdf.py`) -/

/-- The slicing loop of `add_split_image`: `num_pages` crops computed
from the rounded per-page crop height, with
`crop_y_start = int(page_num * crop_height_per_page)` and
`crop_y_end = min(int((page_num + 1) * crop_height_per_page),
img_height)`; each slice is drawn with height
`(crop_y_end - crop_y_start) * scale`. -/
def addSplitImageSlices (img_width img_height : ℕ) : List SliceSpec :=
  let scale := USABLE_WIDTH / (img_width : ℚ)
  let scaled_height := (img_height : ℚ) * scale
  let num_pages : ℤ := ⌊(scaled_height + USABLE_HEIGHT - 1) / USABLE_HEIGHT⌋
  let crop_height_per_page := USABLE_HEIGHT / scale
  (List.range num_pages.toNat).map fun (page_num : ℕ) =>
    let crop_y_start : ℤ := ⌊(page_num : ℚ) * crop_height_per_page⌋
    let crop_y_end : ℤ :=
      min ⌊((page_num : ℚ) + 1) * crop_height_per_page⌋ (img_height : ℤ)
    { sourceYStart := crop_y_start
      sourceYEnd := crop_y_end
      renderedWidth := USABLE_WIDTH
      renderedHeight := ((crop_y_end - crop_y_start : ℤ) : ℚ) * scale
      index := page_num + 1
      total := num_pages }

/-! ## Auxiliary definitions used by theorem statements -/

/-- No code-fence line directly follows a table-row line.  When this
holds, `parse_content_blocks` never flushes an empty `current_block` in
the table-end branch (the only emission site without a non-emptiness
guard). -/
def noTableFence : List String → Bool
  | a :: b :: t => (!(isTableRowLine a && isFenceLine b)) && noTableFence (b :: t)
  | _ => true

/-- The table-row classification the spec describes: begins with the
table delimiter and contains at least one interior delimiter.  Modelled
from the spec's words, for comparison with the source's
`isTableRowLine`. -/
def specTableRow (l : String) : Bool :=
  pyStartsWith (pyStrip l) ("|") && ((pyStrip l).data.drop 1).contains '|'

/-- A plain paragraph line: matched by none of the structural rules of
`parse_content_blocks`. -/
def isPlainLine (l : String) : Bool :=
  !(isFenceLine l) && !(isTableRowLine l) && !(isHrLine l) &&
    !(isHashHeading l) && !(isListItemLine l) && !(isBlankLine l)

/-- The number of blocks of a page with a positive character count. -/
def positiveBlockCount (p : List ContentBlock) : ℕ :=
  (p.filter fun b => 0 < b.char_count).length

/-- `'\n'.join(blocks' contents)`: the reconstruction of the source text
from the segmenter's output, joined with the separator the input was
split on. -/
def reconstruct (bs : List ContentBlock) : String :=
  joinLines (bs.map ContentBlock.content)

/-- The input's final line is not whitespace-only.  When this holds the
final buffer flush of `parse_content_blocks` cannot discard a
whitespace-only tail. -/
def lastLineNotBlank (lines : List String) : Bool :=
  match lines.getLast? with
  | some g => !(isBlankLine g)
  | none => true

/-! ## Binary64 model (`Dy`)

The image pipeline computes in Python floats, IEEE-754 binary64 with
round to nearest, ties to even.  Every value it manipulates is a
non-negative dyadic rational well inside the normal range, so a natural
mantissa with an integer exponent models a double exactly; each
arithmetic step rounds the exact result back to 53 significant bits.
The `canFitFloat` / `createPdfFloatGo` functions below re-express
`can_fit_with_shrink` and the `create_pdf` slicing loop over this model,
operation by operation. -/

/-- Bit length of a natural number, with fuel (`blen 400` covers every
intermediate value of the pipeline, which stays far below `2 ^ 400`). -/
def blen : ℕ → ℕ → ℕ
  | 0, _ => 0
  | f + 1, n => if n = 0 then 0 else blen f (n / 2) + 1

/-- A non-negative binary64 value `m * 2 ^ e`. -/
structure Dy where
  m : ℕ
  e : ℤ
deriving DecidableEq

/-- Round `m * 2 ^ e` to 53 significant bits, nearest, ties to even. -/
def roundDy (m : ℕ) (e : ℤ) : Dy :=
  if m = 0 then ⟨0, 0⟩
  else
    let bl := blen 400 m
    if bl ≤ 53 then ⟨m, e⟩
    else
      let s := bl - 53
      let q := m / 2 ^ s
      let r := m % 2 ^ s
      let half := 2 ^ (s - 1)
      if r < half then ⟨q, e + s⟩
      else if half < r then ⟨q + 1, e + s⟩
      else if q % 2 = 0 then ⟨q, e + s⟩ else ⟨q + 1, e + s⟩

/-- Round `(n / d) * 2 ^ e` (for `d ≠ 0`) to binary64: the guard digits
come from an exact scaled integer division, and the division remainder
supplies the sticky bit at a tie. -/
def roundDivDy (n d : ℕ) (e : ℤ) : Dy :=
  if n = 0 then ⟨0, 0⟩
  else
    let s := 55 + blen 400 d
    let t := n * 2 ^ s / d
    let r := n * 2 ^ s % d
    let bl := blen 400 t
    let sh := bl - 53
    let q := t / 2 ^ sh
    let rem := t % 2 ^ sh
    let half := 2 ^ (sh - 1)
    if rem < half then ⟨q, e - s + sh⟩
    else if half < rem then ⟨q + 1, e - s + sh⟩
    else if 0 < r then ⟨q + 1, e - s + sh⟩
    else if q % 2 = 0 then ⟨q, e - s + sh⟩ else ⟨q + 1, e - s + sh⟩

/-- Both mantissas shifted to the smaller of the two exponents, so that
they compare and combine exactly. -/
def dyAlign (a b : Dy) : ℕ × ℕ :=
  (a.m * 2 ^ (a.e - min a.e b.e).toNat, b.m * 2 ^ (b.e - min a.e b.e).toNat)

/-- Exact comparison of two model values (float comparison is exact). -/
def dyLE (a b : Dy) : Bool := decide ((dyAlign a b).1 ≤ (dyAlign a b).2)

def dyLT (a b : Dy) : Bool := decide ((dyAlign a b).1 < (dyAlign a b).2)

/-- Python `min` on two numbers: the first argument when it is not
larger. -/
def dyMin (a b : Dy) : Dy := if dyLE a b then a else b

def dyAdd (a b : Dy) : Dy :=
  roundDy ((dyAlign a b).1 + (dyAlign a b).2) (min a.e b.e)

/-- Rounded difference.  (Both subtractions of the pipeline subtract a
smaller value from a larger one, so the natural-number truncation is
never exercised.) -/
def dySub (a b : Dy) : Dy :=
  roundDy ((dyAlign a b).1 - (dyAlign a b).2) (min a.e b.e)

def dyMul (a b : Dy) : Dy := roundDy (a.m * b.m) (a.e + b.e)

def dyDiv (a b : Dy) : Dy := roundDivDy a.m b.m (a.e - b.e)

/-- Python `int()` on a non-negative float: truncation, i.e. the floor. -/
def floorDy (a : Dy) : ℕ :=
  if 0 ≤ a.e then a.m * 2 ^ a.e.toNat else a.m / 2 ^ (-a.e).toNat

/-- Conversion of a Python int to a float (exact below `2 ^ 53`). -/
def dyOfNat (n : ℕ) : Dy := roundDy n 0

def d0 : Dy := ⟨0, 0⟩

def d540 : Dy := ⟨540, 0⟩

def d720 : Dy := ⟨720, 0⟩

/-- The binary64 value of the literal `0.8`: `3602879701896397 * 2 ^ -52`,
slightly above `4 / 5`. -/
def d08 : Dy := ⟨3602879701896397, -52⟩

/-- The float computation of
`calculate_scaled_dimensions(W, H, USABLE_WIDTH)` (no height cap):
`scale = 540 / W`, `scaled_width = 540.0`, `scaled_height = H * scale`. -/
def calcScaledFloat (W H : ℕ) : Dy × Dy :=
  let scale := dyDiv d540 (dyOfNat W)
  (d540, dyMul (dyOfNat H) scale)

/-- The fit test of `can_fit_with_shrink` exactly as the floats compute
it: fits at full size when `scaled_height <= USABLE_HEIGHT`, else fits
shrunk when `required_scale = USABLE_HEIGHT / scaled_height` is at least
the double `0.8`. -/
def canFitFloat (W H : ℕ) : Bool :=
  let sh := (calcScaledFloat W H).2
  if dyLE sh d720 then true
  else dyLE d08 (dyDiv d720 sh)

/-- The `while remaining_height > 0` slicing loop of `create_pdf` in
binary64, recording `(int(crop_y_start), int(crop_y_end),
actual_height)` for each page; `crop_y_end` is handed to the next
iteration unchanged, exactly as the source assigns
`crop_y_start = crop_y_end`. -/
def createPdfFloatGo : ℕ → Dy → Dy → Dy → ℕ → List (ℕ × ℕ × Dy)
  | 0, _, _, _, _ => []
  | fuel + 1, remaining, cropStart, scaleFactor, imgH =>
    if dyLT d0 remaining then
      let thisPage := dyMin remaining d720
      let cropHeightOrig := dyDiv thisPage scaleFactor
      let cropEnd := dyMin (dyAdd cropStart cropHeightOrig) (dyOfNat imgH)
      (floorDy cropStart, floorDy cropEnd,
        dyMul (dySub cropEnd cropStart) scaleFactor) ::
        createPdfFloatGo fuel (dySub remaining thisPage) cropEnd scaleFactor imgH
    else []

/-- The split path of `create_pdf` for a `W x H` image in binary64:
width-fit scale factor and scaled height, then the slicing loop (the
fuel `H + 2` bounds the iteration count, which is about `0.75 * H` at
worst). -/
def createPdfFloatSlices (W H : ℕ) : List (ℕ × ℕ × Dy) :=
  let sf := dyDiv d540 (dyOfNat W)
  let sh := dyMul (dyOfNat H) sf
  createPdfFloatGo (H + 2) sh d0 sf H

/-- The exact rational value of a binary64 model value. -/
def dyQ (a : Dy) : ℚ := (a.m : ℚ) * 2 ^ a.e

/-! # Theorems

Helper lemmas first, then one theorem per claim (with witnesses and
counterexamples where required). -/

/-! ## Page Packer lemmas -/

/-- The natural-number form of `overshootsTarget` coincides with the
rational comparison `potential_chars > TARGET_CHARS * 1.3` (with `1.3`
the exact value of the IEEE double). -/
theorem overshootsTarget_iff_rat (p : ℕ) :
    overshootsTarget p = true ↔ (TARGET_CHARS : ℚ) * onePointThree < (p : ℚ) := by
  unfold overshootsTarget onePointThree TARGET_CHARS
  rw [decide_eq_true_eq]
  rw [mul_div_assoc']
  rw [div_lt_iff₀ (by norm_num : (0 : ℚ) < 4503599627370496)]
  constructor <;> intro h <;> exact_mod_cast h

theorem le_of_not_overshootsTarget {p : ℕ} (h : overshootsTarget p = false) :
    p ≤ 3575 := by
  unfold overshootsTarget TARGET_CHARS at h
  rw [decide_eq_false_iff_not] at h
  by_contra hp
  push_neg at hp
  exact h (lt_of_lt_of_le (by norm_num)
    (Nat.mul_le_mul_right 4503599627370496 hp))

theorem pageChars_append (p q : List ContentBlock) :
    pageChars (p ++ q) = pageChars p + pageChars q := by
  unfold pageChars
  rw [List.map_append, List.sum_append]

theorem positiveBlockCount_append (p q : List ContentBlock) :
    positiveBlockCount (p ++ q) = positiveBlockCount p + positiveBlockCount q := by
  unfold positiveBlockCount
  rw [List.filter_append, List.length_append]

theorem positiveBlockCount_singleton_le (b : ContentBlock) :
    positiveBlockCount [b] ≤ 1 := by
  unfold positiveBlockCount
  rw [List.filter]
  split <;> simp

theorem positiveBlockCount_of_pageChars_zero {p : List ContentBlock}
    (h : pageChars p = 0) : positiveBlockCount p = 0 := by
  unfold positiveBlockCount
  rw [List.length_eq_zero, List.filter_eq_nil]
  intro b hb
  have hb0 : b.char_count = 0 := by
    unfold pageChars at h
    exact List.sum_eq_zero_iff.mp h b.char_count
      (List.mem_map_of_mem ContentBlock.char_count hb)
  simp [hb0]

theorem pageChars_ne_nil {p : List ContentBlock} (h : pageChars p ≠ 0) :
    p ≠ [] := by
  intro hnil
  exact h (by rw [hnil]; rfl)

/-- The running invariant of `split_into_pages`: every finished page with
at least two positive-length blocks fits under the overshoot limit, the
page under construction does as well, and `current_chars` is exactly the
character sum of the page under construction. -/
def PackOk (s : PackState) : Prop :=
  (∀ p ∈ s.pages, 2 ≤ positiveBlockCount p → pageChars p ≤ 3575) ∧
  (2 ≤ positiveBlockCount s.current_page → pageChars s.current_page ≤ 3575) ∧
  s.current_chars = pageChars s.current_page

theorem packStep_ok {s : PackState} (hs : PackOk s) (b : ContentBlock) :
    PackOk (packStep s b) := by
  obtain ⟨h1, h2, h3⟩ := hs
  unfold packStep
  split
  case isTrue h =>
    refine ⟨?_, ?_, ?_⟩
    · intro p hp
      rcases List.mem_append.1 hp with hp | hp
      · exact h1 p hp
      · rcases List.mem_singleton.1 hp with rfl
        exact h2
    · intro hcount
      dsimp only at hcount
      have := positiveBlockCount_singleton_le b
      omega
    · simp [pageChars]
  case isFalse h =>
    refine ⟨h1, ?_, ?_⟩
    · intro hcount
      rw [positiveBlockCount_append] at hcount
      by_cases hzero : s.current_chars = 0
      · exfalso
        have hz : pageChars s.current_page = 0 := by rw [← h3, hzero]
        have hc0 := positiveBlockCount_of_pageChars_zero hz
        have := positiveBlockCount_singleton_le b
        omega
      · have hne : s.current_page ≠ [] := pageChars_ne_nil (by rw [← h3]; exact hzero)
        have hnb : shouldBreakBlock s.current_chars b = false := by
          by_contra hbr
          exact h ⟨by simpa using hbr, hne⟩
        have hov : overshootsTarget (s.current_chars + b.char_count) = false := by
          unfold shouldBreakBlock at hnb
          split_ifs at hnb <;> simp_all
        have hle := le_of_not_overshootsTarget hov
        rw [pageChars_append, ← h3]
        simpa [pageChars] using hle
    · rw [pageChars_append, ← h3]
      simp [pageChars]

theorem foldl_packStep_ok (bs : List ContentBlock) :
    ∀ s : PackState, PackOk s → PackOk (bs.foldl packStep s) := by
  induction bs with
  | nil => intro s hs; exact hs
  | cons b bs ih =>
    intro s hs
    rw [List.foldl_cons]
    exact ih _ (packStep_ok hs b)

theorem packOk_init : PackOk ⟨[], [], 0⟩ := by
  refine ⟨by simp, by intro h; simp [positiveBlockCount] at h, rfl⟩

theorem foldl_packStep_flatten (bs : List ContentBlock) :
    ∀ s : PackState,
      ((bs.foldl packStep s).pages).flatten ++ (bs.foldl packStep s).current_page
        = s.pages.flatten ++ s.current_page ++ bs := by
  induction bs with
  | nil => intro s; simp
  | cons b bs ih =>
    intro s
    rw [List.foldl_cons, ih]
    unfold packStep
    split
    · simp
    · simp

/-- `split_into_pages` with its `let` unfolded. -/
theorem split_into_pages_eq (blocks : List ContentBlock) :
    split_into_pages blocks =
      if (blocks.foldl packStep ⟨[], [], 0⟩).current_page ≠ [] then
        (blocks.foldl packStep ⟨[], [], 0⟩).pages ++
          [(blocks.foldl packStep ⟨[], [], 0⟩).current_page]
      else (blocks.foldl packStep ⟨[], [], 0⟩).pages := rfl

/-- Concatenating the block lists of all produced pages yields exactly
the input block list. -/
theorem split_into_pages_flatten (blocks : List ContentBlock) :
    (split_into_pages blocks).flatten = blocks := by
  rw [split_into_pages_eq]
  have h := foldl_packStep_flatten blocks ⟨[], [], 0⟩
  simp only [List.flatten_nil, List.nil_append] at h
  split
  case isTrue => rw [List.flatten_append]; simpa using h
  case isFalse hne =>
    push_neg at hne
    rw [hne] at h
    simpa using h

theorem packStep_pages_pre (s : PackState) (b : ContentBlock) :
    ∃ u, (packStep s b).pages = s.pages ++ u := by
  unfold packStep
  split
  · exact ⟨[s.current_page], rfl⟩
  · exact ⟨[], by simp⟩

theorem foldl_packStep_pages_pre (bs : List ContentBlock) :
    ∀ s : PackState, ∃ t, (bs.foldl packStep s).pages = s.pages ++ t := by
  induction bs with
  | nil => exact fun s => ⟨[], by simp⟩
  | cons b bs ih =>
    intro s
    rw [List.foldl_cons]
    obtain ⟨t, ht⟩ := ih (packStep s b)
    obtain ⟨u, hu⟩ := packStep_pages_pre s b
    exact ⟨u ++ t, by rw [ht, hu, List.append_assoc]⟩

theorem foldl_packStep_pages_ne_nil (bs : List ContentBlock) :
    ∀ s : PackState, (∀ p ∈ s.pages, p ≠ []) →
      ∀ p ∈ (bs.foldl packStep s).pages, p ≠ [] := by
  induction bs with
  | nil => intro s hs; exact hs
  | cons b bs ih =>
    intro s hs
    rw [List.foldl_cons]
    refine ih _ ?_
    unfold packStep
    split
    case isTrue h =>
      intro p hp
      rcases List.mem_append.1 hp with hp | hp
      · exact hs p hp
      · rcases List.mem_singleton.1 hp with rfl
        exact h.2
    case isFalse h => exact hs

theorem split_into_pages_ne_nil (blocks : List ContentBlock) :
    ∀ p ∈ split_into_pages blocks, p ≠ [] := by
  rw [split_into_pages_eq]
  intro p hp
  split at hp
  case isTrue h =>
    rcases List.mem_append.1 hp with hp | hp
    · exact foldl_packStep_pages_ne_nil blocks ⟨[], [], 0⟩ (by simp) p hp
    · rcases List.mem_singleton.1 hp with rfl
      exact h
  case isFalse h =>
    exact foldl_packStep_pages_ne_nil blocks ⟨[], [], 0⟩ (by simp) p hp

/-! ## Claims C9, C3, C1 (Page Packer) -/

/-- C9: given an empty block list, `split_into_pages` terminates normally
and returns an empty list of pages — no error, no page. -/
theorem c9_empty_block_list_yields_no_pages : split_into_pages [] = [] := rfl

/-- C3: for every block list, concatenating the block sequences of all
produced pages in page order yields exactly the input block list — every
block on exactly one page, no duplication, no omission, order
preserved. -/
theorem c3_page_exhaustiveness (blocks : List ContentBlock) :
    (split_into_pages blocks).flatten = blocks :=
  split_into_pages_flatten blocks

/-- C1 counterexample: the claim "every page except a single-oversized-
block page has total character count at most `max`" fails.  A 1000-char
paragraph followed by a 2550-char paragraph is packed onto one page of
two blocks totalling 3550 > `MAX_CHARS` = 3500: when the second block
arrives, `current_chars` = 1000 < `min`, so the `max` rule does not fire,
and 3550 does not exceed `TARGET_CHARS * 1.3` = 3575. -/
theorem c1_counterexample :
    (split_into_pages
        [⟨String.mk (List.replicate 1000 'x'), .paragraph, 1000⟩,
         ⟨String.mk (List.replicate 2550 'y'), .paragraph, 2550⟩]).map
        (fun p => (p.length, pageChars p)) = [(2, 3550)] ∧
      MAX_CHARS < 3550 := by
  constructor
  · decide
  · decide

/-- C1 (amended): for every block list and every page produced by the
Page Packer (`target` = 2750, `min` = 2000, `max` = 3500), every page
containing at least two blocks of positive character count has total
character count at most 3575 = `target * 1.3` (the overshoot threshold,
which exceeds `max` by 75); only a page whose positive character count
comes from a single block is unbounded. -/
theorem c1_pages_bounded_by_overshoot (blocks : List ContentBlock) :
    ∀ p ∈ split_into_pages blocks, 2 ≤ positiveBlockCount p → pageChars p ≤ 3575 := by
  intro p hp hcount
  have hok := foldl_packStep_ok blocks ⟨[], [], 0⟩ packOk_init
  rw [split_into_pages_eq] at hp
  split at hp
  case isTrue h =>
    rcases List.mem_append.1 hp with hp | hp
    · exact hok.1 p hp hcount
    · rcases List.mem_singleton.1 hp with rfl
      exact hok.2.1 hcount
  case isFalse h => exact hok.1 p hp hcount

theorem c1_pages_bounded_by_overshoot_witness :
    [(⟨"a", .paragraph, 1⟩ : ContentBlock), ⟨"b", .paragraph, 1⟩] ∈
        split_into_pages [⟨"a", .paragraph, 1⟩, ⟨"b", .paragraph, 1⟩] ∧
      2 ≤ positiveBlockCount [(⟨"a", .paragraph, 1⟩ : ContentBlock), ⟨"b", .paragraph, 1⟩] ∧
      pageChars [(⟨"a", .paragraph, 1⟩ : ContentBlock), ⟨"b", .paragraph, 1⟩] ≤ 3575 :=
  ⟨by decide, by decide,
    c1_pages_bounded_by_overshoot
      [⟨"a", .paragraph, 1⟩, ⟨"b", .paragraph, 1⟩]
      [⟨"a", .paragraph, 1⟩, ⟨"b", .paragraph, 1⟩] (by decide) (by decide)⟩

/-! ## Claim C4 (break-preferred blocks start pages) -/

theorem packStateAt_succ (blocks : List ContentBlock) (i : ℕ) (hi : i < blocks.length) :
    packStateAt blocks (i + 1) = packStep (packStateAt blocks i) (blocks.get ⟨i, hi⟩) := by
  unfold packStateAt
  rw [List.take_succ, List.foldl_append]
  rw [List.getElem?_eq_getElem hi]
  rfl

theorem packStateAt_last (blocks : List ContentBlock) (i : ℕ) :
    blocks.foldl packStep ⟨[], [], 0⟩ =
      (blocks.drop (i + 1)).foldl packStep (packStateAt blocks (i + 1)) := by
  unfold packStateAt
  rw [← List.foldl_append, List.take_append_drop]

/-- C4: whenever the Page Packer reaches a break-preferred block (kind
heading, hr or step) with at least `min` characters accumulated on the
page under construction, that block becomes the first block of a new
page: the blocks before position `i` fill whole pages exactly, and the
page at the corresponding index starts with block `i`. -/
theorem c4_break_preferred_starts_page (blocks : List ContentBlock) (i : ℕ)
    (hi : i < blocks.length)
    (hbp : (blocks.get ⟨i, hi⟩).is_break_point = true)
    (hmin : MIN_CHARS ≤ (packStateAt blocks i).current_chars) :
    ∃ k, (((split_into_pages blocks).take k).map List.length).sum = i ∧
      ((split_into_pages blocks)[k]?.bind List.head?) = some (blocks.get ⟨i, hi⟩) := by
  set s := packStateAt blocks i with hs
  set b := blocks.get ⟨i, hi⟩ with hb
  have hok : PackOk s := foldl_packStep_ok _ _ packOk_init
  have hchars : s.current_chars = pageChars s.current_page := hok.2.2
  have hchars_ne : s.current_chars ≠ 0 := by
    unfold MIN_CHARS at hmin; omega
  have hcur_ne : s.current_page ≠ [] := by
    apply pageChars_ne_nil; rw [← hchars]; exact hchars_ne
  have hsb : shouldBreakBlock s.current_chars b = true := by
    unfold shouldBreakBlock
    rw [if_neg hchars_ne, if_pos ⟨hbp, hmin⟩]
  have hstep : packStep s b = ⟨s.pages ++ [s.current_page], [b], b.char_count⟩ := by
    unfold packStep
    rw [if_pos ⟨hsb, hcur_ne⟩]
  have hsucc : packStateAt blocks (i + 1) =
      ⟨s.pages ++ [s.current_page], [b], b.char_count⟩ := by
    rw [packStateAt_succ blocks i hi, ← hs, ← hb, hstep]
  -- the blocks before position i fill the pages accumulated so far
  have hpre : ((packStateAt blocks (i + 1)).pages).flatten ++
      (packStateAt blocks (i + 1)).current_page = blocks.take (i + 1) := by
    have h := foldl_packStep_flatten (blocks.take (i + 1)) ⟨[], [], 0⟩
    simpa using h
  rw [hsucc] at hpre
  simp only at hpre
  have hlen : ((s.pages ++ [s.current_page]).flatten).length = i := by
    have := congrArg List.length hpre
    rw [List.length_append, List.length_take] at this
    simp only [List.length_singleton] at this
    omega
  -- the final packer state extends these pages
  obtain ⟨t1, ht1⟩ :=
    foldl_packStep_pages_pre (blocks.drop (i + 1)) (packStateAt blocks (i + 1))
  have hfin : (blocks.foldl packStep ⟨[], [], 0⟩).pages =
      (s.pages ++ [s.current_page]) ++ t1 := by
    rw [packStateAt_last blocks i, ht1, hsucc]
  have hP : ∃ t, split_into_pages blocks = (s.pages ++ [s.current_page]) ++ t := by
    rw [split_into_pages_eq]
    split
    · exact ⟨t1 ++ [(blocks.foldl packStep ⟨[], [], 0⟩).current_page],
        by rw [hfin, List.append_assoc]⟩
    · exact ⟨t1, hfin⟩
  obtain ⟨t, htP⟩ := hP
  refine ⟨(s.pages ++ [s.current_page]).length, ?_, ?_⟩
  · rw [htP, List.take_left, ← List.length_flatten, hlen]
  · have hflat : (split_into_pages blocks).flatten = blocks :=
      split_into_pages_flatten blocks
    set k := (s.pages ++ [s.current_page]).length with hk
    have htake : (split_into_pages blocks).take k = s.pages ++ [s.current_page] := by
      rw [htP, List.take_left]
    have hsplitTD : ((split_into_pages blocks).take k).flatten ++
        ((split_into_pages blocks).drop k).flatten = blocks := by
      rw [← List.flatten_append, List.take_append_drop, hflat]
    have hdropflat : ((split_into_pages blocks).drop k).flatten = blocks.drop i := by
      have h2 := congrArg (List.drop i) hsplitTD
      rw [List.drop_append_of_le_length (by rw [htake, hlen])] at h2
      rw [htake] at h2
      have hdropnil : List.drop i ((s.pages ++ [s.current_page]).flatten) = [] := by
        rw [← hlen]; exact List.drop_length _
      rw [hdropnil] at h2
      simpa using h2
    have hkP : k < (split_into_pages blocks).length := by
      by_contra hkge
      push_neg at hkge
      have hnil : (split_into_pages blocks).drop k = [] := List.drop_eq_nil_of_le hkge
      rw [hnil] at hdropflat
      simp only [List.flatten_nil] at hdropflat
      have hlen2 := congrArg List.length hdropflat
      simp only [List.length_nil, List.length_drop] at hlen2
      omega
    have hgetd : (split_into_pages blocks).drop k =
        (split_into_pages blocks).get ⟨k, hkP⟩ :: (split_into_pages blocks).drop (k + 1) :=
      List.drop_eq_getElem_cons hkP
    have hpage_ne : (split_into_pages blocks).get ⟨k, hkP⟩ ≠ [] :=
      split_into_pages_ne_nil blocks _ (List.get_mem _ _ hkP)
    have hdropb : blocks.drop i = b :: blocks.drop (i + 1) :=
      List.drop_eq_getElem_cons hi
    rw [hgetd, hdropb] at hdropflat
    simp only [List.flatten_cons] at hdropflat
    obtain ⟨a, pk, hpk⟩ : ∃ a pk, (split_into_pages blocks).get ⟨k, hkP⟩ = a :: pk := by
      cases hpg : (split_into_pages blocks).get ⟨k, hkP⟩ with
      | nil => exact absurd hpg hpage_ne
      | cons a pk => exact ⟨a, pk, rfl⟩
    rw [hpk] at hdropflat
    have ha : a = b := by
      have := congrArg List.head? hdropflat
      simpa using this
    rw [List.getElem?_eq_getElem hkP]
    rw [show (split_into_pages blocks)[k] =
      (split_into_pages blocks).get ⟨k, hkP⟩ from rfl]
    rw [hpk]
    rw [ha]
    rfl

theorem c4_break_preferred_starts_page_witness :
    (1 : ℕ) < ([⟨"", .paragraph, 2000⟩, ⟨"", BlockType.heading, 3⟩] :
        List ContentBlock).length ∧
      (∃ k, (((split_into_pages
            [⟨"", .paragraph, 2000⟩, ⟨"", BlockType.heading, 3⟩]).take k).map
            List.length).sum = 1 ∧
        ((split_into_pages
            [⟨"", .paragraph, 2000⟩, ⟨"", BlockType.heading, 3⟩])[k]?.bind
            List.head?) =
          some (([⟨"", .paragraph, 2000⟩, ⟨"", BlockType.heading, 3⟩] :
            List ContentBlock).get ⟨1, by decide⟩)) :=
  ⟨by decide,
    c4_break_preferred_starts_page
      [⟨"", .paragraph, 2000⟩, ⟨"", BlockType.heading, 3⟩] 1 (by decide)
      (by decide) (by decide)⟩

/-! ## Image Fitter lemmas -/

theorem usable_width_eq : USABLE_WIDTH = 540 := by
  norm_num [USABLE_WIDTH, PAGE_WIDTH, MARGIN]

theorem usable_height_eq : USABLE_HEIGHT = 720 := by
  norm_num [USABLE_HEIGHT, PAGE_HEIGHT, MARGIN]

theorem calculate_scaled_dimensions_none (W H : ℕ) (mw : ℚ) :
    calculate_scaled_dimensions W H mw none = (mw, (H : ℚ) * (mw / (W : ℚ))) := rfl

theorem widthFitHeight_eq (W H : ℕ) :
    widthFitHeight W H = (H : ℚ) * (USABLE_WIDTH / (W : ℚ)) := rfl

/-- `can_fit_with_shrink` classifies an image as fitting iff its
width-fit scaled height is at most `900 = USABLE_HEIGHT / shrinkFloor`. -/
theorem can_fit_fst_iff (W H : ℕ) (hW : 0 < W) :
    (can_fit_with_shrink W H).1 = true ↔ widthFitHeight W H ≤ 900 := by
  simp only [can_fit_with_shrink, calculate_scaled_dimensions]
  rw [widthFitHeight_eq]
  rw [usable_height_eq, shrinkFloor]
  set sh : ℚ := (H : ℚ) * (USABLE_WIDTH / (W : ℚ)) with hsh
  split_ifs with h1 h2
  · constructor
    · intro _; linarith
    · intro _; rfl
  · constructor
    · intro _
      push_neg at h1
      have hshpos : (0 : ℚ) < sh := by linarith
      have h3 := (le_div_iff₀ hshpos).mp h2
      linarith
    · intro _; rfl
  · constructor
    · intro hh; simp at hh
    · intro hle
      exfalso
      apply h2
      push_neg at h1
      have hshpos : (0 : ℚ) < sh := by linarith
      exact (le_div_iff₀ hshpos).mpr (by linarith)

/-! ## Slice Cropper lemmas (`create_pdf`) -/

theorem createPdfGo_nonpos (H : ℕ) (sf sw : ℚ) (t : ℤ) (fuel : ℕ)
    (rem start : ℚ) (pn : ℕ) (h : ¬ 0 < rem) :
    createPdfGo H sf sw t fuel rem start pn = [] := by
  cases fuel with
  | zero => rfl
  | succ fuel => simp only [createPdfGo, if_neg h]

theorem createPdfGo_map_total (H : ℕ) (sf sw : ℚ) (t : ℤ) :
    ∀ (fuel : ℕ) (rem start : ℚ) (pn : ℕ),
      (createPdfGo H sf sw t fuel rem start pn).map (fun s => s.total) =
        List.replicate (createPdfGo H sf sw t fuel rem start pn).length t := by
  intro fuel
  induction fuel with
  | zero => intro rem start pn; rfl
  | succ fuel ih =>
    intro rem start pn
    by_cases h : 0 < rem
    · simp only [createPdfGo, if_pos h, List.map_cons, List.length_cons,
        List.replicate_succ, List.cons.injEq, true_and]
      exact ih _ _ _
    · simp only [createPdfGo, if_neg h, List.map_nil, List.length_nil,
        List.replicate_zero]

/-- The `while remaining_height > 0` loop runs exactly
`⌈remaining / USABLE_HEIGHT⌉` times. -/
theorem createPdfGo_length (H : ℕ) (sf sw : ℚ) (t : ℤ) :
    ∀ (fuel : ℕ) (rem start : ℚ) (pn : ℕ), 0 < rem →
      ⌈rem / USABLE_HEIGHT⌉.toNat ≤ fuel →
      (createPdfGo H sf sw t fuel rem start pn).length =
        ⌈rem / USABLE_HEIGHT⌉.toNat := by
  have hUHpos : (0 : ℚ) < USABLE_HEIGHT := by rw [usable_height_eq]; norm_num
  intro fuel
  induction fuel with
  | zero =>
    intro rem start pn hrem hfuel
    exfalso
    have hpos : (0 : ℤ) < ⌈rem / USABLE_HEIGHT⌉ :=
      Int.ceil_pos.mpr (div_pos hrem hUHpos)
    omega
  | succ fuel ih =>
    intro rem start pn hrem hfuel
    simp only [createPdfGo, if_pos hrem]
    rw [List.length_cons]
    by_cases hle : rem ≤ USABLE_HEIGHT
    · rw [min_eq_left hle]
      rw [createPdfGo_nonpos _ _ _ _ _ _ _ _ (by simp)]
      have hceil : ⌈rem / USABLE_HEIGHT⌉ = 1 := by
        rw [Int.ceil_eq_iff]
        constructor
        · push_cast
          simpa using div_pos hrem hUHpos
        · push_cast
          exact (div_le_one hUHpos).mpr hle
      rw [hceil]
      rfl
    · push_neg at hle
      rw [min_eq_right (le_of_lt hle)]
      have hrem' : 0 < rem - USABLE_HEIGHT := by linarith
      have hceil' : ⌈(rem - USABLE_HEIGHT) / USABLE_HEIGHT⌉ =
          ⌈rem / USABLE_HEIGHT⌉ - 1 := by
        rw [sub_div, div_self (ne_of_gt hUHpos)]
        exact Int.ceil_sub_one _
      have hfuel' : ⌈(rem - USABLE_HEIGHT) / USABLE_HEIGHT⌉.toNat ≤ fuel := by
        rw [hceil']; omega
      rw [ih (rem - USABLE_HEIGHT) _ _ hrem' hfuel']
      rw [hceil']
      have hpos : (0 : ℤ) < ⌈rem / USABLE_HEIGHT⌉ :=
        Int.ceil_pos.mpr (div_pos hrem hUHpos)
      omega

/-- `createPdfSlices` with its `let` bindings unfolded. -/
theorem createPdfSlices_eq (W H : ℕ) :
    createPdfSlices W H =
      createPdfGo H (USABLE_WIDTH / (W : ℚ)) USABLE_WIDTH
        (totalPagesCreatePdf (widthFitHeight W H))
        (⌈widthFitHeight W H / USABLE_HEIGHT⌉.toNat) (widthFitHeight W H) 0 0 := rfl

/-! ## Claim C7 (slice count and caption total) -/

/-- C7: on a 1080 × 2881 image (width-fit scaled height 1440.5, which
requires splitting), the `create_pdf` loop produces
`⌈1440.5 / 720⌉ = 3` slices, but every slice's caption total is
`total_pages = ⌊(1440.5 + 719) / 720⌋ = 2`: the captions read "(1/2)",
"(2/2)", "(3/2)".  The slice count matches `ceil(scaledH / pageH)` as the
claim states, but the caption total `N` does not equal that count, because
the code computes `N` with an integer-ceiling formula applied to a
non-integer float. -/
theorem c7_caption_total_mismatch :
    (createPdfSlices 1080 2881).length = 3 ∧
      (createPdfSlices 1080 2881).map (fun s => s.total) = [2, 2, 2] ∧
      ⌈widthFitHeight 1080 2881 / USABLE_HEIGHT⌉ = 3 ∧
      totalPagesCreatePdf (widthFitHeight 1080 2881) = 2 ∧
      (can_fit_with_shrink 1080 2881).1 = false := by
  have hsh : widthFitHeight 1080 2881 = 2881 / 2 := by
    rw [widthFitHeight_eq, usable_width_eq]
    norm_num
  have hceil3 : ⌈widthFitHeight 1080 2881 / USABLE_HEIGHT⌉ = 3 := by
    rw [hsh, usable_height_eq]
    rw [Int.ceil_eq_iff]
    norm_num
  have htot : totalPagesCreatePdf (widthFitHeight 1080 2881) = 2 := by
    rw [hsh]
    unfold totalPagesCreatePdf
    rw [usable_height_eq]
    rw [Int.floor_eq_iff]
    norm_num
  have hrem : (0 : ℚ) < widthFitHeight 1080 2881 := by
    rw [hsh]; norm_num
  have hlen : (createPdfSlices 1080 2881).length = 3 := by
    rw [createPdfSlices_eq]
    rw [createPdfGo_length _ _ _ _ _ _ _ _ hrem (le_refl _)]
    rw [hceil3]
    rfl
  refine ⟨hlen, ?_, hceil3, htot, ?_⟩
  · rw [createPdfSlices_eq]
    rw [createPdfGo_map_total]
    rw [← createPdfSlices_eq, hlen, htot]
    rfl
  · rw [Bool.eq_false_iff]
    intro hh
    rw [can_fit_fst_iff 1080 2881 (by norm_num)] at hh
    rw [hsh] at hh
    norm_num at hh

/-! ## Claim C5 (slice contiguity and exhaustiveness) -/

/-- Loop invariant of the `create_pdf` splitting loop: starting from
`crop_y_start` with `remaining` scaled height still to place, and with
`crop_y_start + remaining / scale_factor` within the image, the emitted
slices are non-empty, start at `⌊crop_y_start⌋`, are contiguous, end at
`⌊crop_y_start + remaining / scale_factor⌋`, and their rendered heights
sum to exactly `remaining`. -/
theorem createPdfGo_spec (H : ℕ) (sf sw : ℚ) (t : ℤ) (hsf : 0 < sf) :
    ∀ (fuel : ℕ) (rem start : ℚ) (pn : ℕ), 0 < rem →
      start + rem / sf ≤ (H : ℚ) →
      ⌈rem / USABLE_HEIGHT⌉.toNat ≤ fuel →
      (createPdfGo H sf sw t fuel rem start pn ≠ [] ∧
        ((createPdfGo H sf sw t fuel rem start pn).map
            (fun s => s.sourceYStart)).head? = some ⌊start⌋ ∧
        List.Chain' (fun a b => a.sourceYEnd = b.sourceYStart)
          (createPdfGo H sf sw t fuel rem start pn) ∧
        ((createPdfGo H sf sw t fuel rem start pn).map
            (fun s => s.sourceYEnd)).getLast? = some ⌊start + rem / sf⌋ ∧
        ((createPdfGo H sf sw t fuel rem start pn).map
            (fun s => s.renderedHeight)).sum = rem) := by
  have hUHpos : (0 : ℚ) < USABLE_HEIGHT := by rw [usable_height_eq]; norm_num
  intro fuel
  induction fuel with
  | zero =>
    intro rem start pn hrem hbound hfuel
    exfalso
    have hpos : (0 : ℤ) < ⌈rem / USABLE_HEIGHT⌉ :=
      Int.ceil_pos.mpr (div_pos hrem hUHpos)
    omega
  | succ fuel ih =>
    intro rem start pn hrem hbound hfuel
    simp only [createPdfGo, if_pos hrem]
    by_cases hle : rem ≤ USABLE_HEIGHT
    · rw [min_eq_left hle]
      have hend : min (start + rem / sf) (H : ℚ) = start + rem / sf :=
        min_eq_left hbound
      rw [hend]
      rw [createPdfGo_nonpos _ _ _ _ _ _ _ _ (by simp)]
      refine ⟨by simp, rfl, List.chain'_singleton _, rfl, ?_⟩
      simp only [List.map_cons, List.map_nil, List.sum_cons, List.sum_nil,
        add_zero]
      rw [add_sub_cancel_left]
      exact div_mul_cancel₀ rem (ne_of_gt hsf)
    · push_neg at hle
      rw [min_eq_right (le_of_lt hle)]
      have hdivle : USABLE_HEIGHT / sf ≤ rem / sf :=
        (div_le_div_right hsf).mpr (le_of_lt hle)
      have hendle : start + USABLE_HEIGHT / sf ≤ (H : ℚ) := by linarith
      have hend : min (start + USABLE_HEIGHT / sf) (H : ℚ) =
          start + USABLE_HEIGHT / sf := min_eq_left hendle
      rw [hend]
      have hrem' : 0 < rem - USABLE_HEIGHT := by linarith
      have halg : (start + USABLE_HEIGHT / sf) + (rem - USABLE_HEIGHT) / sf =
          start + rem / sf := by
        have h9 : USABLE_HEIGHT + (rem - USABLE_HEIGHT) = rem := by ring
        rw [add_assoc, div_add_div_same, h9]
      have hbound' : (start + USABLE_HEIGHT / sf) + (rem - USABLE_HEIGHT) / sf ≤
          (H : ℚ) := by rw [halg]; exact hbound
      have hceil' : ⌈(rem - USABLE_HEIGHT) / USABLE_HEIGHT⌉ =
          ⌈rem / USABLE_HEIGHT⌉ - 1 := by
        rw [sub_div, div_self (ne_of_gt hUHpos)]
        exact Int.ceil_sub_one _
      have hfuel' : ⌈(rem - USABLE_HEIGHT) / USABLE_HEIGHT⌉.toNat ≤ fuel := by
        rw [hceil']; omega
      obtain ⟨hne, hhead, hchain, hlast, hsum⟩ :=
        ih (rem - USABLE_HEIGHT) (start + USABLE_HEIGHT / sf) (pn + 1) hrem'
          hbound' hfuel'
      refine ⟨by simp, rfl, ?_, ?_, ?_⟩
      · rw [List.chain'_cons']
        refine ⟨?_, hchain⟩
        intro b hb
        have hh : (createPdfGo H sf sw t fuel (rem - USABLE_HEIGHT)
            (start + USABLE_HEIGHT / sf) (pn + 1)).head? = some b :=
          Option.mem_def.mp hb
        have h11 : ((createPdfGo H sf sw t fuel (rem - USABLE_HEIGHT)
            (start + USABLE_HEIGHT / sf) (pn + 1)).map
              (fun s => s.sourceYStart)).head? = some b.sourceYStart := by
          rw [List.head?_map, hh]
          rfl
        rw [hhead] at h11
        exact Option.some.inj h11
      · obtain ⟨x, L', hxL⟩ : ∃ x L', createPdfGo H sf sw t fuel
            (rem - USABLE_HEIGHT) (start + USABLE_HEIGHT / sf) (pn + 1) =
              x :: L' := by
          cases hLc : createPdfGo H sf sw t fuel (rem - USABLE_HEIGHT)
              (start + USABLE_HEIGHT / sf) (pn + 1) with
          | nil => exact absurd hLc hne
          | cons x L' => exact ⟨x, L', rfl⟩
        rw [hxL] at hlast ⊢
        rw [List.map_cons, List.map_cons, List.getLast?_cons_cons]
        rw [← List.map_cons]
        rw [hlast, halg]
      · simp only [List.map_cons, List.sum_cons]
        rw [hsum]
        rw [add_sub_cancel_left]
        rw [div_mul_cancel₀ _ (ne_of_gt hsf)]
        ring

theorem can_fit_false_img_width_pos {W H : ℕ}
    (hsplit : (can_fit_with_shrink W H).1 = false) : 0 < W := by
  rcases Nat.eq_zero_or_pos W with h0 | h
  · exfalso
    subst h0
    simp only [can_fit_with_shrink, calculate_scaled_dimensions,
      Nat.cast_zero, div_zero, mul_zero] at hsplit
    rw [if_pos (by rw [usable_height_eq]; norm_num :
      (0 : ℚ) ≤ USABLE_HEIGHT)] at hsplit
    simp at hsplit
  · exact h

/-- The journal-to-pdf Slice Cropper (`add_split_image`) is not
exhaustive.  On a 1080 × 2881 image (scaled height 1440.5, shrink to fit
would need scale < 0.8, so it must split; every float operation is exact
at this input, so the rational model is bit-for-bit the program), it
recomputes crops from the rounded per-page increment and the last
slice's source end is row 2880, not the image height 2881: source row
2880 is dropped. -/
theorem journal_cropper_drops_rows :
    ((addSplitImageSlices 1080 2881).map (fun s => s.sourceYEnd)).getLast? =
        some 2880 ∧
      (2880 : ℤ) ≠ 2881 ∧
      (can_fit_with_shrink 1080 2881).1 = false := by
  refine ⟨?_, by norm_num, ?_⟩
  · simp only [addSplitImageSlices, usable_width_eq, usable_height_eq]
    norm_num
    refine ⟨1, by decide, by norm_num⟩
  · rw [Bool.eq_false_iff]
    intro hh
    rw [can_fit_fst_iff 1080 2881 (by norm_num)] at hh
    rw [widthFitHeight_eq, usable_width_eq] at hh
    norm_num at hh

/-! ## Block Segmenter lemmas -/

theorem mem_flushBlocks {b : ContentBlock} {ls : List String} {ty : BlockType}
    (h : b ∈ flushBlocks ls ty) : b = mkBlock ls ty := by
  unfold flushBlocks at h
  split at h
  · simp at h
  · simpa using h

/-- Every block emitted by any state of the parsing loop stores
`char_count = len(content)`: every emission site uses
`char_count=len(block_content)`. -/
theorem parseLoop_char_count :
    ∀ (fuel : ℕ) (lines acc : List String) (ty : BlockType) (ic it : Bool)
      (b : ContentBlock), b ∈ parseLoop fuel lines acc ty ic it →
      b.char_count = b.content.length := by
  intro fuel
  induction fuel with
  | zero =>
    intro lines acc ty ic it b hb
    simp [parseLoop] at hb
  | succ fuel ih =>
    intro lines acc ty ic it b hb
    cases lines with
    | nil =>
      simp only [parseLoop, eofFlush] at hb
      split at hb
      · simp at hb
      · split at hb
        · simp at hb
        · rw [List.mem_singleton] at hb
          subst hb
          rfl
    | cons line rest =>
      simp only [parseLoop] at hb
      split_ifs at hb
      all_goals
        first
          | exact ih _ _ _ _ _ _ hb
          | (rcases List.mem_cons.mp hb with hbe | hb <;>
              first
                | (subst hbe; rfl)
                | exact ih _ _ _ _ _ _ hb)
          | (rcases List.mem_append.mp hb with hb | hb <;>
              first
                | (have hbe := mem_flushBlocks hb; subst hbe; rfl)
                | exact ih _ _ _ _ _ _ hb
                | (rcases List.mem_cons.mp hb with hbe | hb <;>
                    first
                      | (subst hbe; rfl)
                      | exact ih _ _ _ _ _ _ hb))

/-! ## Claim C10 (stored char_count is exact) -/

/-- C10: for every input text and every `ContentBlock` emitted by
`parse_content_blocks`, the stored `char_count` equals the character
length of the block's `content`, so the Page Packer's budget is exact. -/
theorem c10_char_count_exact (content : String) :
    ∀ b ∈ parse_content_blocks content, b.char_count = b.content.length :=
  fun b hb => parseLoop_char_count _ _ _ _ _ _ b hb

theorem c10_char_count_exact_witness :
    (⟨"hi", .paragraph, 2⟩ : ContentBlock) ∈ parse_content_blocks ("hi") ∧
      (⟨"hi", .paragraph, 2⟩ : ContentBlock).char_count =
        (⟨"hi", .paragraph, 2⟩ : ContentBlock).content.length :=
  ⟨by decide, c10_char_count_exact ("hi") ⟨"hi", .paragraph, 2⟩ (by decide)⟩

/-! ## String primitive lemmas -/

theorem joinLines_cons_of_ne_nil (l : String) {ls : List String} (h : ls ≠ []) :
    joinLines (l :: ls) = l ++ "\n" ++ joinLines ls := by
  cases ls with
  | nil => exact absurd rfl h
  | cons x xs => rfl

theorem joinLines_append {A B : List String} (hA : A ≠ []) (hB : B ≠ []) :
    joinLines (A ++ B) = joinLines A ++ "\n" ++ joinLines B := by
  induction A with
  | nil => exact absurd rfl hA
  | cons a A ih =>
    cases A with
    | nil =>
      rw [List.singleton_append, joinLines_cons_of_ne_nil a hB]
      rfl
    | cons a2 A2 =>
      rw [List.cons_append, joinLines_cons_of_ne_nil a (by simp),
        joinLines_cons_of_ne_nil a (by simp), ih (by simp)]
      simp only [String.append_assoc]

theorem splitNl_ne_nil (cs : List Char) : splitNl cs ≠ [] := by
  induction cs with
  | nil => simp [splitNl]
  | cons c cs ih =>
    unfold splitNl
    split
    · simp
    · split <;> simp

theorem joinChars_splitNl (cs : List Char) : joinChars (splitNl cs) = cs := by
  induction cs with
  | nil => rfl
  | cons c cs ih =>
    unfold splitNl
    split
    case isTrue h =>
      subst h
      cases hsp : splitNl cs with
      | nil => exact absurd hsp (splitNl_ne_nil cs)
      | cons g gs =>
        show joinChars ([] :: g :: gs) = '\n' :: cs
        rw [show joinChars ([] :: g :: gs) = [] ++ '\n' :: joinChars (g :: gs) from rfl]
        rw [List.nil_append, ← hsp, ih]
    case isFalse h =>
      cases hsp : splitNl cs with
      | nil => exact absurd hsp (splitNl_ne_nil cs)
      | cons g gs =>
        cases gs with
        | nil =>
          show joinChars [c :: g] = c :: cs
          rw [show joinChars [c :: g] = c :: g from rfl]
          rw [← ih, hsp]
          rfl
        | cons g2 gs2 =>
          show joinChars ((c :: g) :: g2 :: gs2) = c :: cs
          rw [show joinChars ((c :: g) :: g2 :: gs2) =
            (c :: g) ++ '\n' :: joinChars (g2 :: gs2) from rfl]
          rw [← ih, hsp]
          rfl

theorem joinLines_map_mk (gs : List (List Char)) :
    (joinLines (gs.map String.mk)).data = joinChars gs := by
  induction gs with
  | nil => rfl
  | cons g gs ih =>
    cases gs with
    | nil => rfl
    | cons g2 gs2 =>
      rw [List.map_cons, joinLines_cons_of_ne_nil _ (by simp)]
      rw [String.data_append, String.data_append, ih]
      rw [show joinChars (g :: g2 :: gs2) =
        g ++ '\n' :: joinChars (g2 :: gs2) from rfl]
      simp [List.append_assoc]

theorem joinLines_splitLines (s : String) : joinLines (splitLines s) = s := by
  apply String.ext
  unfold splitLines
  rw [joinLines_map_mk, joinChars_splitNl]

theorem pyStrip_eq_empty_iff (s : String) :
    pyStrip s = "" ↔ s.data.all isPySpace = true := by
  unfold pyStrip
  constructor
  · intro h
    have hdata : (((s.data.dropWhile isPySpace).reverse).dropWhile
        isPySpace).reverse = [] := congrArg String.data h
    rw [List.reverse_eq_nil_iff, List.dropWhile_eq_nil_iff] at hdata
    rw [List.all_eq_true]
    intro c hc
    have hc2 : c ∈ s.data.takeWhile isPySpace ++ s.data.dropWhile isPySpace := by
      rw [List.takeWhile_append_dropWhile]
      exact hc
    rcases List.mem_append.mp hc2 with hmem | hmem
    · exact List.mem_takeWhile_imp hmem
    · exact hdata c (List.mem_reverse.mpr hmem)
  · intro h
    rw [List.all_eq_true] at h
    have h1 : s.data.dropWhile isPySpace = [] := by
      rw [List.dropWhile_eq_nil_iff]
      intro c hc
      exact h c hc
    apply String.ext
    rw [h1]
    rfl

theorem isBlankLine_iff_strip (l : String) :
    isBlankLine l = true ↔ pyStrip l = "" := by
  rw [pyStrip_eq_empty_iff]
  exact Iff.rfl

theorem mem_data_joinLines {l : String} {acc : List String} (hl : l ∈ acc)
    {c : Char} (hc : c ∈ l.data) : c ∈ (joinLines acc).data := by
  induction acc with
  | nil => exact absurd hl (List.not_mem_nil l)
  | cons a as ih =>
    cases as with
    | nil =>
      rcases List.mem_singleton.mp hl with rfl
      exact hc
    | cons a2 as2 =>
      rw [joinLines_cons_of_ne_nil a (by simp), String.data_append,
        String.data_append]
      rcases List.mem_cons.mp hl with rfl | hl
      · exact List.mem_append_left _ (List.mem_append_left _ hc)
      · exact List.mem_append_right _ (ih hl)

theorem pyStrip_joinLines_ne {acc : List String} {l : String} (hl : l ∈ acc)
    (hb : isBlankLine l = false) : pyStrip (joinLines acc) ≠ "" := by
  intro hcon
  rw [pyStrip_eq_empty_iff, List.all_eq_true] at hcon
  unfold isBlankLine at hb
  rw [List.all_eq_false] at hb
  obtain ⟨c, hc, hcs⟩ := hb
  exact hcs (hcon c (mem_data_joinLines hl hc))

theorem flatten_ne_nil_of_head {G : List (List String)} (hG : G ≠ [])
    (hne : ∀ g ∈ G, g ≠ []) : G.flatten ≠ [] := by
  cases G with
  | nil => exact absurd rfl hG
  | cons g G' =>
    rw [List.flatten_cons]
    have := hne g (List.mem_cons_self g G')
    intro hcon
    rcases List.append_eq_nil.mp hcon with ⟨h1, _⟩
    exact this h1

theorem joinLines_map_joinLines {G : List (List String)}
    (hne : ∀ g ∈ G, g ≠ []) : joinLines (G.map joinLines) = joinLines G.flatten := by
  induction G with
  | nil => rfl
  | cons g G' ih =>
    cases G' with
    | nil => simp [joinLines]
    | cons g2 G2 =>
      have hg2ne : ∀ x ∈ g2 :: G2, x ≠ [] := by
        intro x hx
        exact hne x (List.mem_cons_of_mem g hx)
      have hflat : (g2 :: G2).flatten ≠ [] :=
        flatten_ne_nil_of_head (by simp) hg2ne
      rw [List.map_cons, joinLines_cons_of_ne_nil _ (by simp)]
      rw [show (g :: g2 :: G2).flatten = g ++ (g2 :: G2).flatten from rfl]
      rw [joinLines_append (hne g (List.mem_cons_self g (g2 :: G2))) hflat]
      rw [ih hg2ne]

/-- The gluing step of the reconstruction proof: blocks `E` covering the
non-empty line groups `G`, followed by a recursive result `R` that
reconstructs `tail`, together reconstruct `G.flatten ++ tail`. -/
theorem join_glue {E R : List ContentBlock} {G : List (List String)}
    {tail : List String}
    (hEG : E.map ContentBlock.content = G.map joinLines)
    (hGne : ∀ g ∈ G, g ≠ [])
    (hR : joinLines (R.map ContentBlock.content) = joinLines tail)
    (hRne : tail ≠ [] → R ≠ [])
    (hR0 : tail = [] → R = []) :
    joinLines ((E ++ R).map ContentBlock.content) =
      joinLines (G.flatten ++ tail) := by
  rw [List.map_append, hEG]
  by_cases htail : tail = []
  · subst htail
    rw [hR0 rfl]
    simp only [List.map_nil, List.append_nil]
    exact joinLines_map_joinLines hGne
  · have hRne' : R ≠ [] := hRne htail
    by_cases hG : G = []
    · subst hG
      simpa using hR
    · have hGmapne : G.map joinLines ≠ [] := by
        simpa using hG
      have hRmapne : R.map ContentBlock.content ≠ [] := by
        simpa using hRne'
      rw [joinLines_append hGmapne hRmapne, hR,
        joinLines_map_joinLines hGne,
        joinLines_append (flatten_ne_nil_of_head hG hGne) htail]

/-! ## noTableFence and blank-line lemmas -/

theorem noTableFence_cons {a : String} {l : List String}
    (h : noTableFence (a :: l) = true) : noTableFence l = true := by
  cases l with
  | nil => rfl
  | cons b t =>
    unfold noTableFence at h
    simp only [Bool.and_eq_true] at h
    exact h.2

theorem noTableFence_append_right (pre : List String) {tail : List String}
    (h : noTableFence (pre ++ tail) = true) : noTableFence tail = true := by
  induction pre with
  | nil => exact h
  | cons a pre ih =>
    exact ih (noTableFence_cons h)

theorem noTableFence_pair {a b : String} {t : List String}
    (h : noTableFence (a :: b :: t) = true) :
    ¬ (isTableRowLine a = true ∧ isFenceLine b = true) := by
  unfold noTableFence at h
  simp only [Bool.and_eq_true] at h
  intro ⟨ha, hb⟩
  have h1 := h.1
  rw [ha, hb] at h1
  simp at h1

theorem noTableFence_getLast_fence {acc : List String} {line : String}
    {rest : List String} {g : String} (hg : acc.getLast? = some g)
    (htab : isTableRowLine g = true)
    (hnt : noTableFence (acc ++ line :: rest) = true) :
    isFenceLine line = false := by
  induction acc with
  | nil => exact absurd hg (by simp)
  | cons a acc' ih =>
    cases acc' with
    | nil =>
      have hag : a = g := by simpa using hg
      subst hag
      rw [List.singleton_append] at hnt
      have := noTableFence_pair hnt
      cases hfence : isFenceLine line
      · rfl
      · exact absurd ⟨htab, hfence⟩ this
    | cons a2 acc2 =>
      rw [List.getLast?_cons_cons] at hg
      exact ih hg (noTableFence_cons hnt)

theorem isBlankLine_false_of_fence {l : String} (h : isFenceLine l = true) :
    isBlankLine l = false := by
  cases hb : isBlankLine l
  · rfl
  · exfalso
    have hstrip : pyStrip l = "" := (isBlankLine_iff_strip l).mp hb
    unfold isFenceLine at h
    rw [hstrip] at h
    exact absurd h (by decide)

theorem isBlankLine_false_of_tableRow {l : String}
    (h : isTableRowLine l = true) : isBlankLine l = false := by
  cases hb : isBlankLine l
  · rfl
  · exfalso
    have hstrip : pyStrip l = "" := (isBlankLine_iff_strip l).mp hb
    unfold isTableRowLine at h
    rw [hstrip] at h
    exact absurd h (by decide)

theorem head_cons_of_isPrefixOf {c : Char} {ps cs : List Char}
    (h : (c :: ps).isPrefixOf cs = true) : ∃ cs', cs = c :: cs' := by
  cases cs with
  | nil => exact absurd h (by simp [List.isPrefixOf])
  | cons d ds =>
    refine ⟨ds, ?_⟩
    unfold List.isPrefixOf at h
    simp only [Bool.and_eq_true] at h
    have hcd := h.1
    rw [beq_iff_eq] at hcd
    rw [hcd]

theorem isFenceLine_false_of_tableRow {l : String}
    (h : isTableRowLine l = true) : isFenceLine l = false := by
  have hpipe : ∃ cs', (pyStrip l).data = '|' :: cs' := by
    unfold isTableRowLine pyStartsWith at h
    rcases Bool.or_eq_true_iff.mp h with h1 | h1
    · rw [show ("|" : String).data = ['|'] from rfl] at h1
      exact head_cons_of_isPrefixOf h1
    · rcases Bool.or_eq_true_iff.mp h1 with h2 | h2
      · rw [show ("|-" : String).data = ['|', '-'] from rfl] at h2
        exact head_cons_of_isPrefixOf h2
      · rw [show ("|:" : String).data = ['|', ':'] from rfl] at h2
        exact head_cons_of_isPrefixOf h2
  obtain ⟨cs', hcs⟩ := hpipe
  cases hf : isFenceLine l
  · rfl
  · exfalso
    unfold isFenceLine pyStartsWith at hf
    rw [hcs] at hf
    rw [show ("```" : String).data = ['`', '`', '`'] from rfl] at hf
    obtain ⟨cs2, hcs2⟩ := head_cons_of_isPrefixOf hf
    injection hcs2 with h1 _
    exact absurd h1 (by decide)

theorem parseLoop_nil_nil (fuel : ℕ) (ty : BlockType) (ic it : Bool) :
    parseLoop fuel [] [] ty ic it = [] := by
  cases fuel with
  | zero => rfl
  | succ fuel => rfl

theorem absorbList_append : ∀ ls : List String,
    (absorbList ls).1 ++ (absorbList ls).2 = ls := by
  intro ls
  induction ls with
  | nil => rfl
  | cons l rest ih =>
    unfold absorbList
    split_ifs with h1 h2
    · split
      · split_ifs with h3
        · simp only [List.cons_append, ih]
        · rfl
      · rfl
    · simp only [List.cons_append, ih]
    · rfl

theorem lastLineNotBlank_spec {lines : List String}
    (h : lastLineNotBlank lines = true) :
    ∀ g, lines.getLast? = some g → isBlankLine g = false := by
  intro g hg
  unfold lastLineNotBlank at h
  rw [hg] at h
  simpa using h

/-- Restricting a final-line condition to a suffix of the input. -/
theorem hlast_suffix (pre : List String) {tail : List String}
    (h : ∀ g, (pre ++ tail).getLast? = some g → isBlankLine g = false) :
    ∀ g, tail.getLast? = some g → isBlankLine g = false := by
  intro g hg
  apply h
  cases tail with
  | nil => simp at hg
  | cons t ts =>
    rw [List.getLast?_append_of_ne_nil pre (by simp)]
    exact hg

theorem exists_nonblank_of_ne_nil {tail : List String} (htne : tail ≠ [])
    (h : ∀ g, tail.getLast? = some g → isBlankLine g = false) :
    ∃ l ∈ tail, isBlankLine l = false := by
  have hg : tail.getLast? = some (tail.getLast htne) :=
    List.getLast?_eq_getLast tail htne
  exact ⟨tail.getLast htne, List.mem_of_getLast?_eq_some hg, h _ hg⟩

/-- The common emission step: blocks `E` covering the non-empty groups
`G`, followed by the recursive result `R` for `tail`, reconstruct the
whole remaining input `G.flatten ++ tail`. -/
theorem emit_step {E R : List ContentBlock} {G : List (List String)}
    {tail whole : List String}
    (hGflat : G.flatten ++ tail = whole)
    (hEG : E.map ContentBlock.content = G.map joinLines)
    (hGne : ∀ g ∈ G, g ≠ [])
    (hlast : ∀ g, whole.getLast? = some g → isBlankLine g = false)
    (hA' : (∃ l ∈ tail, isBlankLine l = false) → R ≠ [])
    (hB' : joinLines (R.map ContentBlock.content) = joinLines tail)
    (hR0 : tail = [] → R = []) :
    joinLines ((E ++ R).map ContentBlock.content) = joinLines whole := by
  subst hGflat
  exact join_glue hEG hGne hB'
    (fun htne => hA' (exists_nonblank_of_ne_nil htne (hlast_suffix _ hlast)))
    hR0

/-- Helper facts about `flushBlocks` as a group emission: its contents
cover the group list `[acc]` (or nothing when `acc` is empty). -/
theorem flushBlocks_glue (acc : List String) (ty : BlockType) :
    (flushBlocks acc ty).map ContentBlock.content =
        (if acc = [] then ([] : List (List String)) else [acc]).map joinLines ∧
      (if acc = [] then ([] : List (List String)) else [acc]).flatten = acc ∧
      ∀ g ∈ (if acc = [] then ([] : List (List String)) else [acc]), g ≠ [] := by
  by_cases hacc : acc = []
  · subst hacc
    exact ⟨rfl, rfl, by simp⟩
  · rw [if_neg hacc]
    refine ⟨?_, by simp, by simpa using hacc⟩
    unfold flushBlocks
    rw [if_neg (by simpa using hacc)]
    rfl

theorem ite_false_nat : (if false = true then (1 : ℕ) else 0) = 0 := rfl

theorem ite_true_nat : (if true = true then (1 : ℕ) else 0) = 1 := rfl

/-- The reconstruction invariant of the parsing loop: with enough fuel,
no pending phantom-table hazard (`in_table` implies a table row at the
end of the buffer, and never inside a code block), no fence line directly
after a table row in the remaining input, and a non-blank final line, the
loop's output is non-empty whenever some remaining line is non-blank, and
joining the emitted blocks' contents reproduces the join of
`current_block ++ lines`. -/
theorem parseLoop_reconstruct :
    ∀ (fuel : ℕ) (lines acc : List String) (ty : BlockType) (ic it : Bool),
      2 * lines.length + 1 + (if it = true then 1 else 0) ≤ fuel →
      (ic = true → it = false) →
      (it = true → ∃ g, acc.getLast? = some g ∧ isTableRowLine g = true) →
      noTableFence (acc ++ lines) = true →
      (∀ g, (acc ++ lines).getLast? = some g → isBlankLine g = false) →
      ((∃ l ∈ acc ++ lines, isBlankLine l = false) →
          parseLoop fuel lines acc ty ic it ≠ []) ∧
        joinLines ((parseLoop fuel lines acc ty ic it).map ContentBlock.content) =
          joinLines (acc ++ lines) := by
  intro fuel
  induction fuel with
  | zero =>
    intro lines acc ty ic it hf hic hit hnt hlast
    exfalso
    cases it <;> simp at hf
  | succ fuel ih =>
    intro lines acc ty ic it hf hic hit hnt hlast
    cases lines with
    | nil =>
      rw [List.append_nil] at hnt hlast ⊢
      by_cases hacc : acc = []
      · subst hacc
        exact ⟨fun ⟨l, hl, _⟩ => absurd hl (List.not_mem_nil l), rfl⟩
      · have hg : acc.getLast? = some (acc.getLast hacc) :=
          List.getLast?_eq_getLast acc hacc
        have hgb : isBlankLine (acc.getLast hacc) = false := hlast _ hg
        have hmem : acc.getLast hacc ∈ acc := List.mem_of_getLast?_eq_some hg
        have hout : parseLoop (fuel + 1) [] acc ty ic it =
            [⟨joinLines acc, if ic then .code else ty, (joinLines acc).length⟩] := by
          simp only [parseLoop, eofFlush]
          rw [if_neg (by simpa using hacc)]
          rw [if_neg (pyStrip_joinLines_ne hmem hgb)]
        rw [hout]
        exact ⟨fun _ => by simp, rfl⟩
    | cons line rest =>
      rw [List.length_cons] at hf
      by_cases hF : isFenceLine line = true
      · by_cases hC : ic = true
        · -- fence line ends a code block
          subst hC
          have hitf : it = false := hic rfl
          subst hitf
          rw [ite_false_nat] at hf
          have hw : (acc ++ [line]) ++ rest = acc ++ line :: rest := by simp
          have hnt2 : noTableFence ([] ++ rest) = true := by
            rw [List.nil_append]
            exact noTableFence_append_right (acc ++ [line])
              (by rw [hw]; exact hnt)
          have hlast2 : ∀ g, ([] ++ rest).getLast? = some g →
              isBlankLine g = false := by
            rw [List.nil_append]
            exact hlast_suffix (acc ++ [line]) (by rw [hw]; exact hlast)
          obtain ⟨A', B'⟩ := ih rest [] .paragraph false false
            (by rw [ite_false_nat]; omega)
            (fun _ => rfl) (fun h => absurd h Bool.false_ne_true)
            hnt2 hlast2
          have A2 : (∃ l ∈ rest, isBlankLine l = false) →
              parseLoop fuel rest [] .paragraph false false ≠ [] := A'
          have B2 : joinLines ((parseLoop fuel rest [] .paragraph false
              false).map ContentBlock.content) = joinLines rest := B'
          constructor
          · intro _
            simp only [parseLoop, if_pos hF, if_pos rfl]
            simp
          · simp only [parseLoop, if_pos hF, if_pos rfl]
            rw [show mkBlock (acc ++ [line]) BlockType.code ::
                parseLoop fuel rest [] .paragraph false false =
              [mkBlock (acc ++ [line]) BlockType.code] ++
                parseLoop fuel rest [] .paragraph false false from rfl]
            exact emit_step (G := [acc ++ [line]]) (by simp) rfl
              (by intro g hg; rw [List.mem_singleton] at hg; subst hg; simp)
              hlast A2 B2
              (fun h => by rw [h]; exact parseLoop_nil_nil fuel _ _ _)
        · -- fence line starts a code block
          have hicf : ic = false := by
            cases ic
            · rfl
            · exact absurd rfl hC
          subst hicf
          have hitf : it = false := by
            cases it with
            | false => rfl
            | true =>
              obtain ⟨g, hg, htab⟩ := hit rfl
              have hfe := noTableFence_getLast_fence hg htab hnt
              rw [hfe] at hF
              exact absurd hF Bool.false_ne_true
          subst hitf
          rw [ite_false_nat] at hf
          have hnt2 : noTableFence ([line] ++ rest) = true :=
            noTableFence_append_right (acc) hnt
          have hlast2 : ∀ g, ([line] ++ rest).getLast? = some g →
              isBlankLine g = false :=
            hlast_suffix (acc) hlast
          obtain ⟨A', B'⟩ := ih rest [line] .code true false
            (by rw [ite_false_nat]; omega)
            (fun _ => rfl) (fun h => absurd h Bool.false_ne_true)
            hnt2 hlast2
          have A2 : (∃ l ∈ line :: rest, isBlankLine l = false) →
              parseLoop fuel rest [line] .code true false ≠ [] := A'
          have B2 : joinLines ((parseLoop fuel rest [line] .code true
              false).map ContentBlock.content) = joinLines (line :: rest) := B'
          constructor
          · intro _
            simp only [parseLoop, if_pos hF, if_neg Bool.false_ne_true]
            intro hcon
            rcases List.append_eq_nil.mp hcon with ⟨_, hR⟩
            exact A2 ⟨line, by simp, isBlankLine_false_of_fence hF⟩ hR
          · simp only [parseLoop, if_pos hF, if_neg Bool.false_ne_true]
            exact emit_step (G := if acc = [] then [] else [acc])
              (by rw [(flushBlocks_glue acc ty).2.1])
              (flushBlocks_glue acc ty).1
              (flushBlocks_glue acc ty).2.2
              hlast A2 B2
              (fun h => absurd h (List.cons_ne_nil line rest))
      · by_cases hC : ic = true
        · -- inside a code block: keep collecting
          subst hC
          have hitf : it = false := hic rfl
          subst hitf
          rw [ite_false_nat] at hf
          have hw : (acc ++ [line]) ++ rest = acc ++ line :: rest := by simp
          have hnt2 : noTableFence ((acc ++ [line]) ++ rest) = true := by
            rw [hw]; exact hnt
          have hlast2 : ∀ g, ((acc ++ [line]) ++ rest).getLast? = some g →
              isBlankLine g = false := by
            rw [hw]; exact hlast
          obtain ⟨A', B'⟩ := ih rest (acc ++ [line]) ty true false
            (by rw [ite_false_nat]; omega)
            (fun _ => rfl) (fun h => absurd h Bool.false_ne_true)
            hnt2 hlast2
          rw [hw] at A' B'
          constructor
          · intro hex
            simp only [parseLoop, if_neg hF, if_pos rfl]
            exact A' hex
          · simp only [parseLoop, if_neg hF, if_pos rfl]
            exact B'
        · have hicf : ic = false := by
            cases ic
            · rfl
            · exact absurd rfl hC
          subst hicf
          by_cases hT : isTableRowLine line = true
          · by_cases hIT : it = true
            · -- a table row continuing a table
              subst hIT
              rw [ite_true_nat] at hf
              have hw : (acc ++ [line]) ++ rest = acc ++ line :: rest := by
                simp
              have hnt2 : noTableFence ((acc ++ [line]) ++ rest) = true := by
                rw [hw]; exact hnt
              have hlast2 : ∀ g, ((acc ++ [line]) ++ rest).getLast? = some g →
                  isBlankLine g = false := by
                rw [hw]; exact hlast
              have hit2 : ∃ g, (acc ++ [line]).getLast? = some g ∧
                  isTableRowLine g = true :=
                ⟨line, by
                  rw [List.getLast?_append_of_ne_nil acc
                    (List.cons_ne_nil line [])]
                  rfl, hT⟩
              obtain ⟨A', B'⟩ := ih rest (acc ++ [line]) ty false true
                (by rw [ite_true_nat]; omega)
                (fun h => absurd h Bool.false_ne_true)
                (fun _ => hit2)
                hnt2 hlast2
              rw [hw] at A' B'
              constructor
              · intro hex
                simp only [parseLoop, if_neg hF, if_neg Bool.false_ne_true,
                  if_pos hT, if_pos rfl]
                exact A' hex
              · simp only [parseLoop, if_neg hF, if_neg Bool.false_ne_true,
                  if_pos hT, if_pos rfl]
                exact B'
            · -- a table row starting a table
              have hitf : it = false := by
                cases it
                · rfl
                · exact absurd rfl hIT
              subst hitf
              rw [ite_false_nat] at hf
              have hnt2 : noTableFence ([line] ++ rest) = true :=
                noTableFence_append_right (acc) hnt
              have hlast2 : ∀ g, ([line] ++ rest).getLast? = some g →
                  isBlankLine g = false :=
                hlast_suffix (acc) hlast
              obtain ⟨A', B'⟩ := ih rest [line] .table false true
                (by rw [ite_true_nat]; omega)
                (fun h => absurd h Bool.false_ne_true)
                (fun _ => ⟨line, rfl, hT⟩)
                hnt2 hlast2
              have A2 : (∃ l ∈ line :: rest, isBlankLine l = false) →
                  parseLoop fuel rest [line] .table false true ≠ [] := A'
              have B2 : joinLines ((parseLoop fuel rest [line] .table false
                  true).map ContentBlock.content) = joinLines (line :: rest) :=
                B'
              constructor
              · intro _
                simp only [parseLoop, if_neg hF, if_neg Bool.false_ne_true,
                  if_pos hT, if_neg Bool.false_ne_true]
                intro hcon
                rcases List.append_eq_nil.mp hcon with ⟨_, hR⟩
                exact A2 ⟨line, by simp, isBlankLine_false_of_tableRow hT⟩ hR
              · simp only [parseLoop, if_neg hF, if_neg Bool.false_ne_true,
                  if_pos hT, if_neg Bool.false_ne_true]
                exact emit_step (G := if acc = [] then [] else [acc])
                  (by rw [(flushBlocks_glue acc ty).2.1])
                  (flushBlocks_glue acc ty).1
                  (flushBlocks_glue acc ty).2.2
                  hlast A2 B2
                  (fun h => absurd h (List.cons_ne_nil line rest))
          · by_cases hIT : it = true
            · -- a non-table line ends the table
              subst hIT
              rw [ite_true_nat] at hf
              obtain ⟨g, hg, htab⟩ := hit rfl
              have haccne : acc ≠ [] := by
                intro h0
                rw [h0] at hg
                simp at hg
              have hnt2 : noTableFence ([] ++ line :: rest) = true := by
                rw [List.nil_append]
                exact noTableFence_append_right (acc) hnt
              have hlast2 : ∀ g2, ([] ++ line :: rest).getLast? = some g2 →
                  isBlankLine g2 = false := by
                rw [List.nil_append]
                exact hlast_suffix (acc) hlast
              obtain ⟨A', B'⟩ := ih (line :: rest) [] .paragraph false false
                (by rw [ite_false_nat]; rw [List.length_cons]; omega)
                (fun h => absurd h Bool.false_ne_true)
                (fun h => absurd h Bool.false_ne_true)
                hnt2 hlast2
              have A2 : (∃ l ∈ line :: rest, isBlankLine l = false) →
                  parseLoop fuel (line :: rest) [] .paragraph false false ≠ [] :=
                A'
              have B2 : joinLines ((parseLoop fuel (line :: rest) [] .paragraph
                  false false).map ContentBlock.content) =
                  joinLines (line :: rest) := B'
              constructor
              · intro _
                simp only [parseLoop, if_neg hF, if_neg Bool.false_ne_true,
                  if_neg hT, if_pos rfl]
                simp
              · simp only [parseLoop, if_neg hF, if_neg Bool.false_ne_true,
                  if_neg hT, if_pos rfl]
                rw [show mkBlock acc BlockType.table ::
                    parseLoop fuel (line :: rest) [] .paragraph false false =
                  [mkBlock acc BlockType.table] ++
                    parseLoop fuel (line :: rest) [] .paragraph false false
                  from rfl]
                exact emit_step (G := [acc]) (by simp) rfl
                  (by intro g2 hg2
                      rw [List.mem_singleton] at hg2
                      subst hg2
                      exact haccne)
                  hlast A2 B2
                  (fun h => absurd h (List.cons_ne_nil line rest))
            · have hitf : it = false := by
                cases it
                · rfl
                · exact absurd rfl hIT
              subst hitf
              rw [ite_false_nat] at hf
              by_cases hHr : isHrLine line = true
              · -- horizontal rule
                have hw : (acc ++ [line]) ++ rest = acc ++ line :: rest := by
                  simp
                have hnt2 : noTableFence ([] ++ rest) = true := by
                  rw [List.nil_append]
                  exact noTableFence_append_right (acc ++ [line])
                    (by rw [hw]; exact hnt)
                have hlast2 : ∀ g, ([] ++ rest).getLast? = some g →
                    isBlankLine g = false := by
                  rw [List.nil_append]
                  exact hlast_suffix (acc ++ [line])
                    (by rw [hw]; exact hlast)
                obtain ⟨A', B'⟩ := ih rest [] .paragraph false false
                  (by rw [ite_false_nat]; omega)
                  (fun h => absurd h Bool.false_ne_true)
                  (fun h => absurd h Bool.false_ne_true)
                  hnt2 hlast2
                have A2 : (∃ l ∈ rest, isBlankLine l = false) →
                    parseLoop fuel rest [] .paragraph false false ≠ [] := A'
                have B2 : joinLines ((parseLoop fuel rest [] .paragraph
                    false false).map ContentBlock.content) = joinLines rest :=
                  B'
                constructor
                · intro _
                  simp only [parseLoop, if_neg hF, if_neg Bool.false_ne_true,
                    if_neg hT, if_neg Bool.false_ne_true, if_pos hHr]
                  intro hcon
                  rcases List.append_eq_nil.mp hcon with ⟨_, hR⟩
                  simp at hR
                · simp only [parseLoop, if_neg hF, if_neg Bool.false_ne_true,
                    if_neg hT, if_neg Bool.false_ne_true, if_pos hHr]
                  rw [show flushBlocks acc ty ++
                      (⟨line, .hr, line.length⟩ : ContentBlock) ::
                        parseLoop fuel rest [] .paragraph false false =
                      (flushBlocks acc ty ++
                        [(⟨line, .hr, line.length⟩ : ContentBlock)]) ++
                        parseLoop fuel rest [] .paragraph false false from by
                    simp]
                  exact emit_step
                    (G := (if acc = [] then [] else [acc]) ++ [[line]])
                    (by rw [List.flatten_append,
                        (flushBlocks_glue acc ty).2.1]
                        simp)
                    (by rw [List.map_append, List.map_append,
                            (flushBlocks_glue acc ty).1]
                        rfl)
                    (by intro g hg
                        rcases List.mem_append.mp hg with hg | hg
                        · exact (flushBlocks_glue acc ty).2.2 g hg
                        · rw [List.mem_singleton] at hg
                          subst hg
                          simp)
                    hlast A2 B2
                    (fun h => by rw [h]; exact parseLoop_nil_nil fuel _ _ _)
              · by_cases hHH : isHashHeading line = true
                · -- heading bundled with its lead-in paragraph
                  have h1 : rest.takeWhile isBlankLine ++
                      rest.dropWhile isBlankLine = rest :=
                    List.takeWhile_append_dropWhile isBlankLine rest
                  have h2 : (rest.dropWhile isBlankLine).takeWhile
                        isHeadingContinuation ++
                      (rest.dropWhile isBlankLine).dropWhile
                        isHeadingContinuation = rest.dropWhile isBlankLine :=
                    List.takeWhile_append_dropWhile isHeadingContinuation (rest.dropWhile isBlankLine)
                  have hrest : rest.takeWhile isBlankLine ++
                      ((rest.dropWhile isBlankLine).takeWhile
                          isHeadingContinuation ++
                        (rest.dropWhile isBlankLine).dropWhile
                          isHeadingContinuation) = rest := by
                    rw [h2]
                    exact h1
                  have hw : (acc ++ (line :: (rest.takeWhile isBlankLine ++
                      (rest.dropWhile isBlankLine).takeWhile
                        isHeadingContinuation))) ++
                      (rest.dropWhile isBlankLine).dropWhile
                        isHeadingContinuation = acc ++ line :: rest := by
                    rw [List.append_assoc, List.cons_append, List.append_assoc,
                      hrest]
                  have hlen : ((rest.dropWhile isBlankLine).dropWhile
                      isHeadingContinuation).length ≤ rest.length :=
                    le_trans (List.dropWhile_suffix _).length_le
                      (List.dropWhile_suffix _).length_le
                  have hnt2 : noTableFence ([] ++
                      (rest.dropWhile isBlankLine).dropWhile
                        isHeadingContinuation) = true := by
                    rw [List.nil_append]
                    exact noTableFence_append_right
                      (acc ++ (line :: (rest.takeWhile isBlankLine ++
                        (rest.dropWhile isBlankLine).takeWhile
                          isHeadingContinuation)))
                      (by rw [hw]; exact hnt)
                  have hlast2 : ∀ g, ([] ++
                      (rest.dropWhile isBlankLine).dropWhile
                        isHeadingContinuation).getLast? = some g →
                      isBlankLine g = false := by
                    rw [List.nil_append]
                    exact hlast_suffix
                      (acc ++ (line :: (rest.takeWhile isBlankLine ++
                        (rest.dropWhile isBlankLine).takeWhile
                          isHeadingContinuation)))
                      (by rw [hw]; exact hlast)
                  obtain ⟨A', B'⟩ := ih ((rest.dropWhile isBlankLine).dropWhile
                      isHeadingContinuation) [] .paragraph false false
                    (by rw [ite_false_nat]; omega)
                    (fun h => absurd h Bool.false_ne_true)
                    (fun h => absurd h Bool.false_ne_true)
                    hnt2 hlast2
                  have A2 : (∃ l ∈ (rest.dropWhile isBlankLine).dropWhile
                        isHeadingContinuation, isBlankLine l = false) →
                      parseLoop fuel ((rest.dropWhile isBlankLine).dropWhile
                        isHeadingContinuation) [] .paragraph false false ≠ [] :=
                    A'
                  have B2 : joinLines ((parseLoop fuel
                      ((rest.dropWhile isBlankLine).dropWhile
                        isHeadingContinuation) [] .paragraph false
                      false).map ContentBlock.content) =
                      joinLines ((rest.dropWhile isBlankLine).dropWhile
                        isHeadingContinuation) := B'
                  constructor
                  · intro _
                    simp only [parseLoop, if_neg hF, if_neg Bool.false_ne_true,
                      if_neg hT, if_neg Bool.false_ne_true, if_neg hHr,
                      if_pos hHH]
                    intro hcon
                    rcases List.append_eq_nil.mp hcon with ⟨_, hR⟩
                    simp at hR
                  · simp only [parseLoop, if_neg hF, if_neg Bool.false_ne_true,
                      if_neg hT, if_neg Bool.false_ne_true, if_neg hHr,
                      if_pos hHH]
                    rw [show flushBlocks acc ty ++
                        mkBlock (line :: (rest.takeWhile isBlankLine ++
                          (rest.dropWhile isBlankLine).takeWhile
                            isHeadingContinuation))
                          (if isStepHeading line = true then BlockType.step
                            else BlockType.heading) ::
                          parseLoop fuel ((rest.dropWhile isBlankLine).dropWhile
                            isHeadingContinuation) [] .paragraph false false =
                        (flushBlocks acc ty ++
                          [mkBlock (line :: (rest.takeWhile isBlankLine ++
                            (rest.dropWhile isBlankLine).takeWhile
                              isHeadingContinuation))
                            (if isStepHeading line = true then BlockType.step
                              else BlockType.heading)]) ++
                          parseLoop fuel ((rest.dropWhile isBlankLine).dropWhile
                            isHeadingContinuation) [] .paragraph false false
                        from by simp]
                    exact emit_step
                      (G := (if acc = [] then [] else [acc]) ++
                        [line :: (rest.takeWhile isBlankLine ++
                          (rest.dropWhile isBlankLine).takeWhile
                            isHeadingContinuation)])
                      (by rw [List.flatten_append,
                            (flushBlocks_glue acc ty).2.1]
                          rw [show ([line :: (rest.takeWhile isBlankLine ++
                            (rest.dropWhile isBlankLine).takeWhile
                              isHeadingContinuation)] :
                                List (List String)).flatten =
                            line :: (rest.takeWhile isBlankLine ++
                              (rest.dropWhile isBlankLine).takeWhile
                                isHeadingContinuation) from by simp]
                          rw [← hw, List.append_assoc])
                      (by rw [List.map_append, List.map_append,
                              (flushBlocks_glue acc ty).1]
                          rfl)
                      (by intro g hg
                          rcases List.mem_append.mp hg with hg | hg
                          · exact (flushBlocks_glue acc ty).2.2 g hg
                          · rw [List.mem_singleton] at hg
                            subst hg
                            simp)
                      hlast A2 B2
                      (fun h => by rw [h]; exact parseLoop_nil_nil fuel _ _ _)
                · by_cases hLI : isListItemLine line = true
                  · -- a list block absorbing its continuation lines
                    have hra := absorbList_append rest
                    have hw : (acc ++ (line :: (absorbList rest).1)) ++
                        (absorbList rest).2 = acc ++ line :: rest := by
                      rw [List.append_assoc, List.cons_append, hra]
                    have hlen : (absorbList rest).2.length ≤ rest.length := by
                      have hc := congrArg List.length hra
                      rw [List.length_append] at hc
                      omega
                    have hnt2 : noTableFence ([] ++ (absorbList rest).2) =
                        true := by
                      rw [List.nil_append]
                      exact noTableFence_append_right
                        (acc ++ (line :: (absorbList rest).1))
                        (by rw [hw]; exact hnt)
                    have hlast2 : ∀ g, ([] ++
                        (absorbList rest).2).getLast? = some g →
                        isBlankLine g = false := by
                      rw [List.nil_append]
                      exact hlast_suffix
                        (acc ++ (line :: (absorbList rest).1))
                        (by rw [hw]; exact hlast)
                    obtain ⟨A', B'⟩ := ih (absorbList rest).2 [] .paragraph
                        false false
                      (by rw [ite_false_nat]; omega)
                      (fun h => absurd h Bool.false_ne_true)
                      (fun h => absurd h Bool.false_ne_true)
                      hnt2 hlast2
                    have A2 : (∃ l ∈ (absorbList rest).2,
                          isBlankLine l = false) →
                        parseLoop fuel (absorbList rest).2 []
                          .paragraph false false ≠ [] := A'
                    have B2 : joinLines ((parseLoop fuel (absorbList rest).2 []
                        .paragraph false false).map ContentBlock.content) =
                        joinLines (absorbList rest).2 := B'
                    constructor
                    · intro _
                      simp only [parseLoop, if_neg hF,
                        if_neg Bool.false_ne_true, if_neg hT,
                        if_neg Bool.false_ne_true, if_neg hHr, if_neg hHH,
                        if_pos hLI]
                      intro hcon
                      rcases List.append_eq_nil.mp hcon with ⟨_, hR⟩
                      simp at hR
                    · simp only [parseLoop, if_neg hF,
                        if_neg Bool.false_ne_true, if_neg hT,
                        if_neg Bool.false_ne_true, if_neg hHr, if_neg hHH,
                        if_pos hLI]
                      rw [show flushBlocks acc ty ++
                          mkBlock (line :: (absorbList rest).1) .list ::
                            parseLoop fuel (absorbList rest).2 [] .paragraph
                              false false =
                          (flushBlocks acc ty ++
                            [mkBlock (line :: (absorbList rest).1) .list]) ++
                            parseLoop fuel (absorbList rest).2 [] .paragraph
                              false false from by simp]
                      exact emit_step
                        (G := (if acc = [] then [] else [acc]) ++
                          [line :: (absorbList rest).1])
                        (by rw [List.flatten_append,
                              (flushBlocks_glue acc ty).2.1]
                            rw [show ([line :: (absorbList rest).1] :
                                List (List String)).flatten =
                              line :: (absorbList rest).1 from by simp]
                            rw [← hw, List.append_assoc])
                        (by rw [List.map_append, List.map_append,
                                (flushBlocks_glue acc ty).1]
                            rfl)
                        (by intro g hg
                            rcases List.mem_append.mp hg with hg | hg
                            · exact (flushBlocks_glue acc ty).2.2 g hg
                            · rw [List.mem_singleton] at hg
                              subst hg
                              simp)
                        hlast A2 B2
                        (fun h => by rw [h]
                                     exact parseLoop_nil_nil fuel _ _ _)
                  · -- blank line or plain paragraph content: keep collecting
                    have hw : (acc ++ [line]) ++ rest = acc ++ line :: rest := by
                      simp
                    have hnt2 : noTableFence ((acc ++ [line]) ++ rest) =
                        true := by
                      rw [hw]; exact hnt
                    have hlast2 : ∀ g, ((acc ++ [line]) ++ rest).getLast? =
                        some g → isBlankLine g = false := by
                      rw [hw]; exact hlast
                    obtain ⟨A', B'⟩ := ih rest (acc ++ [line]) ty false false
                      (by rw [ite_false_nat]; omega)
                      (fun h => absurd h Bool.false_ne_true)
                      (fun h => absurd h Bool.false_ne_true)
                      hnt2 hlast2
                    rw [hw] at A' B'
                    constructor
                    · intro hex
                      simp only [parseLoop, if_neg hF,
                        if_neg Bool.false_ne_true, if_neg hT,
                        if_neg Bool.false_ne_true, if_neg hHr, if_neg hHH,
                        if_neg hLI]
                      exact A' hex
                    · simp only [parseLoop, if_neg hF,
                        if_neg Bool.false_ne_true, if_neg hT,
                        if_neg Bool.false_ne_true, if_neg hHr, if_neg hHH,
                        if_neg hLI]
                      exact B'

/-- C2 counterexample: on the whitespace-only input `" "`, the segmenter
emits no blocks at all (the EOF flush discards a buffer whose joined
content strips to empty), so the reconstruction is `""`, not `" "`. -/
theorem c2_counterexample :
    parse_content_blocks (" ") = [] ∧
      reconstruct (parse_content_blocks (" ")) ≠ (" ") := by
  decide

/-- C2 (amended): if no code-fence line directly follows a table-row
line anywhere in the input, and the input's final line is not
whitespace-only, then concatenating the emitted blocks' contents in
order, joined with the newline separator used to split, reproduces the
input exactly.  (A whitespace-only final buffer is silently discarded by
the EOF flush, and a fence line directly after a table row leaves
`in_table` set and later yields a phantom empty table block contributing
a spurious separator; either situation breaks exact reconstruction.) -/
theorem c2_lossless_segmentation (content : String)
    (hnt : noTableFence (splitLines content) = true)
    (hlb : lastLineNotBlank (splitLines content) = true) :
    reconstruct (parse_content_blocks content) = content := by
  show joinLines ((parseLoop (2 * (splitLines content).length + 1)
      (splitLines content) [] .paragraph false false).map
      ContentBlock.content) = content
  have h := (parseLoop_reconstruct (2 * (splitLines content).length + 1)
      (splitLines content) [] .paragraph false false
      (by rw [ite_false_nat])
      (fun _ => rfl) (fun h => absurd h Bool.false_ne_true)
      (by rw [List.nil_append]; exact hnt)
      (by rw [List.nil_append]; exact lastLineNotBlank_spec hlb)).2
  rw [List.nil_append] at h
  rw [h]
  exact joinLines_splitLines content

/-- C2 witness: a concrete input satisfying both side conditions, on
which the segmenter's output reconstructs the input exactly. -/
theorem c2_lossless_segmentation_witness :
    noTableFence (splitLines ("# T\nlead\n\npara\n|a|\n|b|\nend")) = true ∧
      lastLineNotBlank (splitLines ("# T\nlead\n\npara\n|a|\n|b|\nend")) = true ∧
      reconstruct (parse_content_blocks ("# T\nlead\n\npara\n|a|\n|b|\nend")) =
        ("# T\nlead\n\npara\n|a|\n|b|\nend") :=
  ⟨by decide, by decide,
    c2_lossless_segmentation ("# T\nlead\n\npara\n|a|\n|b|\nend")
      (by decide) (by decide)⟩

/-- A run of table-row lines followed by one plain line, processed from
an in-table state with a non-empty buffer: the rows are absorbed into
one table block and the plain line becomes a separate paragraph block. -/
theorem parseLoop_table_run :
    ∀ (ls : List String) (fuel : ℕ) (acc : List String) (p : String),
      acc ≠ [] →
      (∀ r ∈ ls, isTableRowLine r = true) →
      isPlainLine p = true →
      ls.length + 3 ≤ fuel →
      parseLoop fuel (ls ++ [p]) acc .table false true =
        [mkBlock (acc ++ ls) .table, mkBlock [p] .paragraph] := by
  intro ls
  induction ls with
  | nil =>
    intro fuel acc p hacc hrows hp hf
    obtain ⟨f1, rfl⟩ : ∃ f1, fuel = f1 + 1 := ⟨fuel - 1, by omega⟩
    obtain ⟨f2, rfl⟩ : ∃ f2, f1 = f2 + 1 := ⟨f1 - 1, by omega⟩
    obtain ⟨f3, rfl⟩ : ∃ f3, f2 = f3 + 1 := ⟨f2 - 1, by omega⟩
    simp only [isPlainLine, Bool.and_eq_true, Bool.not_eq_true'] at hp
    have hpF : ¬ isFenceLine p = true := by
      rw [show isFenceLine p = false by tauto]; exact Bool.false_ne_true
    have hpT : ¬ isTableRowLine p = true := by
      rw [show isTableRowLine p = false by tauto]; exact Bool.false_ne_true
    have hpHr : ¬ isHrLine p = true := by
      rw [show isHrLine p = false by tauto]; exact Bool.false_ne_true
    have hpHH : ¬ isHashHeading p = true := by
      rw [show isHashHeading p = false by tauto]; exact Bool.false_ne_true
    have hpLI : ¬ isListItemLine p = true := by
      rw [show isListItemLine p = false by tauto]; exact Bool.false_ne_true
    have hpB : isBlankLine p = false := by tauto
    have hstrip : ¬ pyStrip (joinLines [p]) = "" := by
      rw [show joinLines [p] = p from rfl]
      intro h0
      rw [← isBlankLine_iff_strip] at h0
      rw [hpB] at h0
      exact Bool.false_ne_true h0
    rw [List.nil_append, List.append_nil]
    simp only [parseLoop, if_neg hpF, if_neg Bool.false_ne_true, if_neg hpT,
      if_pos rfl, if_pos trivial, if_neg hpHr, if_neg hpHH, if_neg hpLI,
      List.nil_append, eofFlush, List.isEmpty_cons, Bool.false_eq_true,
      if_false, if_neg hstrip]
    rfl
  | cons r ls' ih =>
    intro fuel acc p hacc hrows hp hf
    obtain ⟨f1, rfl⟩ : ∃ f1, fuel = f1 + 1 := ⟨fuel - 1, by omega⟩
    have hr : isTableRowLine r = true := hrows r (by simp)
    have hF' : ¬ isFenceLine r = true := by
      rw [isFenceLine_false_of_tableRow hr]; exact Bool.false_ne_true
    have hstep : parseLoop (f1 + 1) ((r :: ls') ++ [p]) acc .table false true =
        parseLoop f1 (ls' ++ [p]) (acc ++ [r]) .table false true := by
      rw [List.cons_append]
      simp only [parseLoop, if_neg hF', if_neg Bool.false_ne_true, if_pos hr,
        if_pos rfl, if_pos trivial]
    rw [hstep, ih f1 (acc ++ [r]) p (by simp)
      (fun x hx => hrows x (by simp [hx])) hp
      (by simp only [List.length_cons] at hf; omega)]
    simp

/-- If the stripped line's characters start with `|` then the
`startswith('|')` test succeeds. -/
theorem pyStartsWith_pipe_of_data {l : String} {cs : List Char}
    (h : (pyStrip l).data = '|' :: cs) : pyStartsWith (pyStrip l) ("|") = true := by
  unfold pyStartsWith
  rw [h, show ("|" : String).data = ['|'] from rfl]
  simp [List.isPrefixOf]

/-- The two extra disjuncts of the source's table-row test are redundant:
the test is equivalent to `line.strip().startswith('|')` alone. -/
theorem isTableRowLine_eq_pipe_test (l : String) :
    isTableRowLine l = pyStartsWith (pyStrip l) ("|") := by
  unfold isTableRowLine
  cases h : pyStartsWith (pyStrip l) ("|") with
  | true => rw [Bool.true_or]
  | false =>
    rw [Bool.false_or]
    have h2 : pyStartsWith (pyStrip l) ("|-") = false := by
      cases h2 : pyStartsWith (pyStrip l) ("|-") with
      | false => rfl
      | true =>
        exfalso
        unfold pyStartsWith at h2
        rw [show ("|-" : String).data = ['|', '-'] from rfl] at h2
        obtain ⟨cs', hcs⟩ := head_cons_of_isPrefixOf h2
        rw [pyStartsWith_pipe_of_data hcs] at h
        exact absurd h (by decide)
    have h3 : pyStartsWith (pyStrip l) ("|:") = false := by
      cases h3 : pyStartsWith (pyStrip l) ("|:") with
      | false => rfl
      | true =>
        exfalso
        unfold pyStartsWith at h3
        rw [show ("|:" : String).data = ['|', ':'] from rfl] at h3
        obtain ⟨cs', hcs⟩ := head_cons_of_isPrefixOf h3
        rw [pyStartsWith_pipe_of_data hcs] at h
        exact absurd h (by decide)
    rw [h2, h3]
    rfl

/-- C8 counterexample: `"|x"` begins with the delimiter but has no
interior delimiter; the spec's classification rejects it, yet the code
classifies it as a table row and emits a table block for it. -/
theorem c8_counterexample :
    isTableRowLine ("|x") = true ∧ specTableRow ("|x") = false ∧
      parse_content_blocks ("|x") = [⟨"|x", .table, 2⟩] := by
  decide

/-- C8 (amended): the code classifies a line as a table row iff its
stripped form begins with the delimiter `|`; no interior delimiter is
required (the `|-` and `|:` disjuncts are subsumed by the first test).
Consecutive table-row lines do accumulate into one `table` block, and a
following plain non-table line ends the run, landing in a separate
paragraph block. -/
theorem c8_table_row_runs (ls : List String) (p : String)
    (hne : ls ≠ [])
    (hrows : ∀ r ∈ ls, isTableRowLine r = true)
    (hp : isPlainLine p = true)
    (hsplit : splitLines (joinLines (ls ++ [p])) = ls ++ [p]) :
    (∀ l, isTableRowLine l = pyStartsWith (pyStrip l) ("|")) ∧
      parse_content_blocks (joinLines (ls ++ [p])) =
        [mkBlock ls .table, mkBlock [p] .paragraph] := by
  refine ⟨isTableRowLine_eq_pipe_test, ?_⟩
  show parseLoop (2 * (splitLines (joinLines (ls ++ [p]))).length + 1)
      (splitLines (joinLines (ls ++ [p]))) [] .paragraph false false =
    [mkBlock ls .table, mkBlock [p] .paragraph]
  rw [hsplit]
  obtain ⟨r, ls', rfl⟩ : ∃ r ls', ls = r :: ls' := by
    cases ls with
    | nil => exact absurd rfl hne
    | cons a b => exact ⟨a, b, rfl⟩
  have hr : isTableRowLine r = true := hrows r (by simp)
  have hF' : ¬ isFenceLine r = true := by
    rw [isFenceLine_false_of_tableRow hr]; exact Bool.false_ne_true
  rw [List.cons_append]
  simp only [parseLoop, if_neg hF', if_neg Bool.false_ne_true, if_pos hr,
    List.length_cons]
  rw [parseLoop_table_run ls' (2 * ((ls' ++ [p]).length + 1)) [r] p
    (by simp) (fun x hx => hrows x (by simp [hx])) hp
    (by simp only [List.length_append, List.length_cons, List.length_nil]
        omega)]
  simp [flushBlocks]

/-- C8 witness: two table rows followed by a plain line produce one table
block and one paragraph block. -/
theorem c8_table_row_runs_witness :
    (["|a|", "|b|"] : List String) ≠ [] ∧
      (∀ r ∈ (["|a|", "|b|"] : List String), isTableRowLine r = true) ∧
      isPlainLine ("end") = true ∧
      parse_content_blocks (joinLines (["|a|", "|b|"] ++ ["end"])) =
        [mkBlock ["|a|", "|b|"] .table, mkBlock ["end"] .paragraph] :=
  ⟨by decide, by decide, by decide,
    (c8_table_row_runs ["|a|", "|b|"] ("end") (by decide) (by decide)
      (by decide) (by decide)).2⟩

/-! ## Binary64 model lemmas and the float-level image claims -/

theorem blen_le : ∀ (f k n : ℕ), n < 2 ^ k → k ≤ f → blen f n ≤ k := by
  intro f
  induction f with
  | zero => intro k n _ _; exact Nat.zero_le k
  | succ f ih =>
    intro k n hn hk
    unfold blen
    split_ifs with h0
    · exact Nat.zero_le k
    · have hk1 : 1 ≤ k := by
        by_contra hc
        push_neg at hc
        interval_cases k
        · simp at hn
          exact h0 hn
      have hhalf : n / 2 < 2 ^ (k - 1) := by
        have h2 : 2 ^ k = 2 * 2 ^ (k - 1) := by
          rw [← pow_succ']
          congr 1
          omega
        omega
      have := ih (k - 1) (n / 2) hhalf (by omega)
      omega

theorem dyOfNat_eq {n : ℕ} (hn : n < 2 ^ 53) : dyOfNat n = ⟨n, 0⟩ := by
  by_cases h0 : n = 0
  · subst h0
    rfl
  · have hbl : blen 400 n ≤ 53 := blen_le 400 53 n hn (by norm_num)
    unfold dyOfNat roundDy
    simp only [if_neg h0, if_pos hbl]

theorem floorDy_le_of_le_nat {x : Dy} {n : ℕ} (h : dyLE x ⟨n, 0⟩ = true) :
    floorDy x ≤ n := by
  unfold dyLE dyAlign at h
  rw [decide_eq_true_eq] at h
  unfold floorDy
  rcases le_or_lt 0 x.e with he | he
  · rw [if_pos he]
    have hmin : min x.e ((⟨n, 0⟩ : Dy).e) = 0 := min_eq_right he
    rw [hmin] at h
    simpa using h
  · rw [if_neg (not_le.mpr he)]
    have hmin : min x.e ((⟨n, 0⟩ : Dy).e) = x.e := min_eq_left (le_of_lt he)
    rw [hmin] at h
    simp only [sub_self, Int.toNat_zero, pow_zero, mul_one, zero_sub] at h
    have h2 : x.m / 2 ^ (-x.e).toNat ≤ n * 2 ^ (-x.e).toNat / 2 ^ (-x.e).toNat :=
      Nat.div_le_div_right h
    rwa [Nat.mul_div_cancel _ (Nat.pos_pow_of_pos _ (by norm_num))] at h2

theorem floorDy_min_ofNat_le (x : Dy) {n : ℕ} (hn : n < 2 ^ 53) :
    floorDy (dyMin x (dyOfNat n)) ≤ n := by
  rw [dyOfNat_eq hn]
  unfold dyMin
  split_ifs with hle
  · exact floorDy_le_of_le_nat hle
  · show floorDy ⟨n, 0⟩ ≤ n
    unfold floorDy
    simp

/-- The slicing loop of `create_pdf` in binary64 is contiguous by
construction: the first slice starts at `int(crop_y_start)`, each
slice's source end is the next slice's source start (the loop hands
`crop_y_end` over as the next `crop_y_start` before either is
truncated), and every source end is at most the image height (the `min`
with `img_height`). -/
theorem createPdfFloatGo_ok :
    ∀ (fuel : ℕ) (remaining cropStart sf : Dy) (imgH : ℕ), imgH < 2 ^ 53 →
      (∀ st, (createPdfFloatGo fuel remaining cropStart sf imgH).head? = some st →
          st.1 = floorDy cropStart) ∧
        List.Chain' (fun a b => a.2.1 = b.1)
          (createPdfFloatGo fuel remaining cropStart sf imgH) ∧
        ∀ s ∈ createPdfFloatGo fuel remaining cropStart sf imgH, s.2.1 ≤ imgH := by
  intro fuel
  induction fuel with
  | zero =>
    intro remaining cropStart sf imgH _
    refine ⟨fun st hst => by simp [createPdfFloatGo] at hst, ?_, ?_⟩
    · simp [createPdfFloatGo]
    · intro s hs
      simp [createPdfFloatGo] at hs
  | succ fuel ih =>
    intro remaining cropStart sf imgH hH
    by_cases hrem : dyLT d0 remaining = true
    · have hstep : createPdfFloatGo (fuel + 1) remaining cropStart sf imgH =
          (floorDy cropStart,
            floorDy (dyMin (dyAdd cropStart (dyDiv (dyMin remaining d720) sf))
              (dyOfNat imgH)),
            dyMul (dySub (dyMin (dyAdd cropStart (dyDiv (dyMin remaining d720) sf))
              (dyOfNat imgH)) cropStart) sf) ::
            createPdfFloatGo fuel (dySub remaining (dyMin remaining d720))
              (dyMin (dyAdd cropStart (dyDiv (dyMin remaining d720) sf))
                (dyOfNat imgH)) sf imgH := by
        simp only [createPdfFloatGo, if_pos hrem]
      obtain ⟨ihH, ihC, ihE⟩ := ih (dySub remaining (dyMin remaining d720))
        (dyMin (dyAdd cropStart (dyDiv (dyMin remaining d720) sf)) (dyOfNat imgH))
        sf imgH hH
      rw [hstep]
      refine ⟨?_, ?_, ?_⟩
      · intro st hst
        rw [List.head?_cons, Option.some_inj] at hst
        rw [← hst]
      · rw [List.chain'_cons']
        exact ⟨fun b hb => (ihH b hb).symm, ihC⟩
      · intro s hs
        rcases List.mem_cons.mp hs with hs | hs
        · rw [hs]
          exact floorDy_min_ofNat_le _ hH
        · exact ihE s hs
    · have hstep : createPdfFloatGo (fuel + 1) remaining cropStart sf imgH = [] := by
        simp only [createPdfFloatGo, if_neg hrem]
      rw [hstep]
      refine ⟨fun st hst => by simp at hst, by simp, fun s hs => by simp at hs⟩

/-- Spot checks of the binary64 model against known double results:
`540 / 105 = 5.142857142857143`, the width-fit scaled height of a
50 x 92 image is the double `993.6`, and
`720 / 900.0000000000001 = 0.7999999999999999`. -/
theorem dy_model_spot_checks :
    dyDiv d540 (dyOfNat 105) = ⟨5790342378047781, -50⟩ ∧
      dyMul (dyOfNat 92) (dyDiv d540 (dyOfNat 50)) = ⟨8739798026865869, -43⟩ ∧
      dyDiv d720 ⟨7916483719987201, -43⟩ = ⟨7205759403792793, -53⟩ := by
  decide

/-- At the journal counterexample input 1080 x 2881, `create_pdf`'s own
binary64 loop does reach the full height 2881 (every float operation is
exact there), confirming that the dropped row is the journal variant's
doing. -/
theorem createPdfFloatSlices_1080_2881 :
    createPdfFloatSlices 1080 2881 =
      [(0, 1440, ⟨6333186975989760, -43⟩), (1440, 2880, ⟨6333186975989760, -43⟩),
        (2880, 2881, ⟨4503599627370496, -53⟩)] := by
  decide

/-- C5 counterexample: on a 50 x 92 image (width-fit scaled height
`993.6`, needs splitting), `create_pdf`'s own binary64 loop produces
crops `(0, 66)` and `(66, 91)`: the accumulated rounding puts the final
crop bound at `91.99999999999999`, `int()` truncates it to 91, and
source row 91 of the 92-row image is dropped — the last slice's source
end does not equal the image height. -/
theorem c5_counterexample_float :
    createPdfFloatSlices 50 92 =
      [(0, 66, ⟨6333186975989760, -43⟩), (66, 91, ⟨4813222101752217, -44⟩)] ∧
      ((createPdfFloatSlices 50 92).getLast?.map fun s => s.2.1) = some 91 ∧
      canFitFloat 50 92 = false ∧ (91 : ℕ) ≠ 92 := by
  decide

/-- C5 (amended): the slices `create_pdf` produces are contiguous and
non-overlapping — the first slice's source start is row 0, each slice's
source end equals the next slice's source start, and every source end is
at most the image height.  Exhaustiveness, however, can fail: float
rounding can leave the last source end strictly below the image height
(row 91 of a 50 x 92 image is dropped), and the journal-to-pdf variant
also drops source rows (see `journal_cropper_drops_rows`). -/
theorem c5_create_pdf_float_contiguous (W imgH : ℕ) (hH : imgH < 2 ^ 53) :
    (∀ st, (createPdfFloatSlices W imgH).head? = some st → st.1 = 0) ∧
      List.Chain' (fun a b => a.2.1 = b.1) (createPdfFloatSlices W imgH) ∧
      ∀ s ∈ createPdfFloatSlices W imgH, s.2.1 ≤ imgH := by
  have heq : createPdfFloatSlices W imgH =
      createPdfFloatGo (imgH + 2) (dyMul (dyOfNat imgH) (dyDiv d540 (dyOfNat W)))
        d0 (dyDiv d540 (dyOfNat W)) imgH := rfl
  rw [heq]
  have h := createPdfFloatGo_ok (imgH + 2)
    (dyMul (dyOfNat imgH) (dyDiv d540 (dyOfNat W))) d0
    (dyDiv d540 (dyOfNat W)) imgH hH
  rw [show floorDy d0 = 0 from rfl] at h
  exact h

/-- C5 witness: the contiguity statement instantiated at the 50 x 92
counterexample image (which the fitter sends to the split path). -/
theorem c5_create_pdf_float_contiguous_witness :
    (92 : ℕ) < 2 ^ 53 ∧
      ((∀ st, (createPdfFloatSlices 50 92).head? = some st → st.1 = 0) ∧
        List.Chain' (fun a b => a.2.1 = b.1) (createPdfFloatSlices 50 92) ∧
        ∀ s ∈ createPdfFloatSlices 50 92, s.2.1 ≤ 92) :=
  ⟨by decide, c5_create_pdf_float_contiguous 50 92 (by decide)⟩

/-- C6: the shrink-floor boundary fails in the program.  A 105 x 175
image has width-fit scaled height exactly `175 * (540 / 105) = 900`,
which is `USABLE_HEIGHT / shrinkFloor` — by the claim it must be
classified as fitting with shrink exactly at the floor.  But the floats
compute `scaled_height = 540 / 105` rounded, times 175, rounded, which
is `900.0000000000001 = 900 + 2 ^ -43`; then
`required_scale = 0.7999999999999999 < 0.8`, and `can_fit_with_shrink`
classifies the image as needing splitting. -/
theorem c6_float_boundary_divergence :
    (175 : ℚ) * (540 / 105) = 720 / shrinkFloor ∧
      (calcScaledFloat 105 175).2 = ⟨7916483719987201, -43⟩ ∧
      dyQ ⟨7916483719987201, -43⟩ = 900 + 1 / 2 ^ 43 ∧
      canFitFloat 105 175 = false := by
  refine ⟨by norm_num [shrinkFloor], by decide, ?_, by decide⟩
  simp only [dyQ]
  norm_num
